import Mathlib

/-
Verification of the half-edge graph builder in src/edgegraph/EdgeGraph.cpp
(GEOS geos::edgegraph::EdgeGraph).

The file shallowly embeds the EdgeGraph container.  Half-edges live in a
growable arena (`edges : List HalfEdge`); the C++ pointers `sym` and `next`
become indices into that arena, and the `HalfEdge*` results of the C++ API
become `Option Nat` handles.  `std::map<Coordinate, HalfEdge*> vertexMap`
becomes an association list with insert-or-assign update.

Only EdgeGraph.cpp is part of the available source fragment.  The HalfEdge
record type (its link / find / insert operations) and Coordinate.compareTo
are declared and used by that file but their code is elsewhere; those
operations are modelled from the specification, and each such definition
carries a doc comment explaining exactly what was modelled.
-/

namespace Geos

/-- Modelled from the spec: `Coordinate` is an opaque comparable point value
with exact equality and a total order, supplied by the external geometry
layer.  It is modelled as an exact planar point with integer components. -/
structure Coordinate where
  x : Int
  y : Int
deriving DecidableEq

instance : Inhabited Coordinate := ⟨⟨0, 0⟩⟩

/-- Modelled from the spec: `Coordinate.compareTo`, the strict
lexicographic-style ordering of endpoint coordinates used by
`EdgeGraph::isValidEdge` (compares `x`, then `y`; result `-1`, `0` or `1`). -/
def Coordinate.compareTo (a b : Coordinate) : Int :=
  if a.x < b.x then -1
  else if a.x > b.x then 1
  else if a.y < b.y then -1
  else if a.y > b.y then 1
  else 0

/-- Modelled from the spec: the `HalfEdge` record type (declared in
geos/edgegraph/HalfEdge.h, not part of the source fragment): a directed edge
holding its origin coordinate, its companion `sym` half-edge and the `next`
half-edge in the rotation ring around its origin.  The non-owning pointers
are modelled as indices into the owning graph's edge arena; a freshly
constructed half-edge is unlinked (`none`). -/
structure HalfEdge where
  orig : Coordinate
  sym : Option Nat
  next : Option Nat
deriving DecidableEq

instance : Inhabited HalfEdge := ⟨⟨⟨0, 0⟩, none, none⟩⟩

/-- The EdgeGraph state: the arena that owns every half-edge ever created
(`EdgeGraph::edges`) and the vertex map from coordinate to one
representative incident half-edge (`EdgeGraph::vertexMap`). -/
structure EdgeGraph where
  edges : List HalfEdge
  vertexMap : List (Coordinate × Nat)
deriving DecidableEq

/-- A freshly constructed, empty edge graph. -/
def emptyGraph : EdgeGraph := ⟨[], []⟩

/-- Lookup in the vertex map (`vertexMap.find(k)` on the `std::map`):
returns the stored half-edge handle for the exact key, if present. -/
def lookupMap : List (Coordinate × Nat) → Coordinate → Option Nat
  | [], _ => none
  | (k, v) :: rest, q => if k = q then some v else lookupMap rest q

/-- Insert-or-assign on the vertex map (`vertexMap[k] = v` on the
`std::map`): overwrites the binding if the key is present, otherwise adds
a new binding. -/
def mapInsert : List (Coordinate × Nat) → Coordinate → Nat → List (Coordinate × Nat)
  | [], k, v => [(k, v)]
  | (k0, v0) :: rest, k, v =>
    if k0 = k then (k, v) :: rest else (k0, v0) :: mapInsert rest k v

/-- The half-edge stored at index `j` of the arena (junk default when out of
range; every index the program dereferences is in range). -/
def heAt (g : EdgeGraph) (j : Nat) : HalfEdge := (g.edges[j]?).getD default

/-- `he->orig()`: the origin coordinate of the half-edge at index `j`. -/
def origAt (g : EdgeGraph) (j : Nat) : Coordinate := (heAt g j).orig

/-- `he->sym()`: the companion half-edge's index (self when unlinked, which
never happens on the indices the program dereferences). -/
def symAt (g : EdgeGraph) (j : Nat) : Nat := ((heAt g j).sym).getD j

/-- `he->oNext()`: the index of the next half-edge in the rotation ring
around the origin (self when unlinked). -/
def nextAt (g : EdgeGraph) (j : Nat) : Nat := ((heAt g j).next).getD j

/-- `he->dest()`: the destination of the half-edge at index `j`, i.e. the
origin of its `sym`. -/
def destAt (g : EdgeGraph) (j : Nat) : Coordinate := origAt g (symAt g j)

/-- Modelled from the spec: `HalfEdge::link(other)` (not part of the source
fragment) establishes a fresh sym-pair between two newly created half-edges:
it sets each one's `sym` to the other and each one's `next` to itself,
giving each a rotation ring of size one. -/
def link (g : EdgeGraph) (a b : Nat) : EdgeGraph :=
  match g.edges[a]?, g.edges[b]? with
  | some ha, some hb =>
    let l1 := g.edges.set a { ha with sym := some b, next := some a }
    let l2 := l1.set b { hb with sym := some a, next := some b }
    { g with edges := l2 }
  | _, _ => g

/-- Modelled from the spec: `HalfEdge::insert(e)` (not part of the source
fragment) splices a half-edge `e` whose origin equals `self`'s origin into
`self`'s rotation ring: `e`'s `next` becomes `self`'s old `next` and
`self`'s `next` becomes `e`.  The spec leaves the angular position in the
ring to an externally defined directional comparator, so the model splices
immediately after the ring's entry point; every property the spec states
(a single cyclic ring, no lost or duplicated links) is independent of the
chosen position. -/
def spliceAfter (g : EdgeGraph) (self e : Nat) : EdgeGraph :=
  match g.edges[self]?, g.edges[e]? with
  | some sh, some eh =>
    let l1 := g.edges.set e { eh with next := sh.next }
    let l2 := l1.set self { sh with next := some e }
    { g with edges := l2 }
  | _, _ => g

/-- Modelled from the spec: the loop of `HalfEdge::find(dest)` (not part of
the source fragment): starting at `i`, check whether the current half-edge's
destination equals `target`, otherwise step to `next`; stop unsuccessfully
upon returning to the start.  The fuel argument bounds the walk; a rotation
ring never has more members than the arena has half-edges, so with fuel
`g.edges.length` the fuel never runs out on a well-formed graph. -/
def findLoop (g : EdgeGraph) (target : Coordinate) (start : Nat) : Nat → Nat → Option Nat
  | _, 0 => none
  | i, fuel + 1 =>
    if destAt g i = target then some i
    else
      let nxt := nextAt g i
      if nxt = start then none else findLoop g target start nxt fuel

/-- Modelled from the spec: `HalfEdge::find(dest)` searches the rotation
ring starting at the half-edge `i` for a half-edge whose destination equals
`target`, returning it, or a not-found signal if the ring has no such
edge. -/
def findHE (g : EdgeGraph) (i : Nat) (target : Coordinate) : Option Nat :=
  findLoop g target i i g.edges.length

/-- `EdgeGraph::createEdge(orig)`: allocates a new, unlinked half-edge with
the given origin in the graph-owned arena and returns its handle. -/
def createEdge (g : EdgeGraph) (orig : Coordinate) : EdgeGraph × Nat :=
  ({ g with edges := g.edges ++ [{ orig := orig, sym := none, next := none }] },
   g.edges.length)

/-- `EdgeGraph::create(p0, p1)`: allocates two half-edges, links them into a
sym-pair, and returns the one whose origin is `p0`. -/
def create (g : EdgeGraph) (p0 p1 : Coordinate) : EdgeGraph × Nat :=
  let r0 := createEdge g p0
  let r1 := createEdge r0.1 p1
  (link r1.1 r0.2 r1.2, r0.2)

/-- `EdgeGraph::isValidEdge(orig, dest)`: an edge is valid exactly when the
two endpoints compare unequal. -/
def isValidEdge (orig dest : Coordinate) : Bool :=
  Coordinate.compareTo dest orig != 0

/-- The second half of `EdgeGraph::insert(orig, dest, eAdj)`: looks `dest`
up in the vertex map; if a representative exists, splices `e`'s sym into its
ring, otherwise registers `e`'s sym as `dest`'s vertex map entry. -/
def insertDest (g2 : EdgeGraph) (dest : Coordinate) (e : Nat) : EdgeGraph × Nat :=
  match lookupMap g2.vertexMap dest with
  | some ad => (spliceAfter g2 ad (symAt g2 e), e)
  | none => ({ g2 with vertexMap := mapInsert g2.vertexMap dest (symAt g2 e) }, e)

/-- `EdgeGraph::insert(orig, dest, eAdj)`: creates the new sym-pair, splices
the origin half-edge into `eAdj`'s ring (or registers it as `orig`'s vertex
map entry), then does the same for the `sym` half-edge on the `dest` side. -/
def insertPair (g : EdgeGraph) (orig dest : Coordinate) (eAdj : Option Nat) :
    EdgeGraph × Nat :=
  let c := create g orig dest
  let g2 := match eAdj with
    | some a => spliceAfter c.1 a c.2
    | none => { c.1 with vertexMap := mapInsert c.1.vertexMap orig c.2 }
  insertDest g2 dest c.2

/-- `EdgeGraph::addEdge(orig, dest)`: rejects degenerate edges, returns an
already-present edge unchanged, and otherwise creates and splices a new
sym-pair.  The returned handle is `none` exactly for the degenerate case. -/
def addEdge (g : EdgeGraph) (orig dest : Coordinate) : EdgeGraph × Option Nat :=
  if ! isValidEdge orig dest then (g, none)
  else
    let eAdj := lookupMap g.vertexMap orig
    let eSame := match eAdj with
      | some a => findHE g a dest
      | none => none
    match eSame with
    | some s => (g, some s)
    | none =>
      let r := insertPair g orig dest eAdj
      (r.1, some r.2)

/-- `EdgeGraph::findEdge(orig, dest)`: looks `orig` up in the vertex map;
if absent returns not-found, otherwise delegates to the stored half-edge's
`find(dest)`. -/
def findEdge (g : EdgeGraph) (orig dest : Coordinate) : Option Nat :=
  match lookupMap g.vertexMap orig with
  | none => none
  | some e => findHE g e dest

/-- `EdgeGraph::getVertexEdges(edgesOut)`: pushes the stored representative
half-edge of every vertex map entry onto the output vector, in map order,
without clearing it; the graph itself is returned unchanged (the method
only reads the map). -/
def getVertexEdges (g : EdgeGraph) (edgesOut : List Nat) : EdgeGraph × List Nat :=
  (g, edgesOut ++ g.vertexMap.map (fun p => p.2))

/-- The number of half-edges in the arena whose origin is `v`.  In a graph
built by `addEdge` this equals the number of distinct edges incident to `v`
inserted so far, since each distinct undirected edge contributes exactly one
half-edge at each of its two (distinct) endpoints. -/
def degree (g : EdgeGraph) (v : Coordinate) : Nat :=
  ((List.range g.edges.length).filter (fun j => decide (origAt g j = v))).length

/-- The trajectory of `f` from `r`: the list `[r, f r, f (f r), ...]` of
length `m`. -/
def traj (f : Nat → Nat) (r : Nat) (m : Nat) : List Nat :=
  (List.range m).map (fun k => f^[k] r)

/-- The rotation ring at `r` is well formed for vertex `v`: following `next`
for `degree v` steps returns to `r`, the visited half-edges are pairwise
distinct, and they are exactly the half-edges whose origin is `v`. -/
def RingAt (g : EdgeGraph) (v : Coordinate) (r : Nat) : Prop :=
  (nextAt g)^[degree g v] r = r
  ∧ (traj (nextAt g) r (degree g v)).Nodup
  ∧ ∀ j, j ∈ traj (nextAt g) r (degree g v) ↔ (j < g.edges.length ∧ origAt g j = v)

/-- Well-formedness of an edge graph state: sym-pairing, next pointers
staying inside the origin's rotation ring, vertex map soundness and
completeness, one well-formed ring per vertex, and absence of duplicate
directed edges. -/
structure WF (g : EdgeGraph) : Prop where
  symSome : ∀ j, j < g.edges.length →
    ∃ s, (heAt g j).sym = some s ∧ s < g.edges.length ∧
      (heAt g s).sym = some j ∧ origAt g s ≠ origAt g j
  nextSome : ∀ j, j < g.edges.length →
    ∃ k, (heAt g j).next = some k ∧ k < g.edges.length ∧ origAt g k = origAt g j
  mapEntry : ∀ p, p ∈ g.vertexMap → p.2 < g.edges.length ∧ origAt g p.2 = p.1
  mapNodupKeys : (g.vertexMap.map Prod.fst).Nodup
  mapComplete : ∀ j, j < g.edges.length →
    ∃ r, lookupMap g.vertexMap (origAt g j) = some r
  ring : ∀ p, p ∈ g.vertexMap → RingAt g p.1 p.2
  noDupEdge : ∀ i, i < g.edges.length → ∀ j, j < g.edges.length →
    origAt g i = origAt g j → destAt g i = destAt g j → i = j

/-- Graph states reachable from the empty graph by `addEdge` calls. -/
inductive Reachable : EdgeGraph → Prop where
  | base : Reachable emptyGraph
  | step (g : EdgeGraph) (o d : Coordinate) : Reachable g → Reachable (addEdge g o d).1

/-- Concrete coordinate used by the witnesses. -/
def cA : Coordinate := ⟨0, 0⟩

/-- Concrete coordinate used by the witnesses. -/
def cB : Coordinate := ⟨1, 0⟩

/-- Concrete coordinate used by the witnesses. -/
def cC : Coordinate := ⟨0, 1⟩

/-- The graph holding the single edge (cA, cB), used by the witnesses. -/
def gAB : EdgeGraph := (addEdge emptyGraph cA cB).1

theorem get_append_lt {α : Type} (l t : List α) (j : Nat) (h : j < l.length) :
    (l ++ t)[j]? = l[j]? := by
  induction l generalizing j with
  | nil => simp at h
  | cons x xs ih =>
    cases j with
    | zero => simp
    | succ j => simpa using ih j (by simpa using h)

theorem get2_left {α : Type} (l : List α) (a b : α) :
    (l ++ [a, b])[l.length]? = some a := by
  induction l with
  | nil => simp
  | cons x xs ih => simpa using ih

theorem get2_right {α : Type} (l : List α) (a b : α) :
    (l ++ [a, b])[l.length + 1]? = some b := by
  induction l with
  | nil => simp
  | cons x xs ih => simpa using ih

theorem set_append_lt {α : Type} (l t : List α) (j : Nat) (x : α) (h : j < l.length) :
    (l ++ t).set j x = l.set j x ++ t := by
  induction l generalizing j with
  | nil => simp at h
  | cons y ys ih =>
    cases j with
    | zero => simp
    | succ j => simpa using ih j (by simpa using h)

theorem set2_left {α : Type} (l : List α) (a b c : α) :
    (l ++ [a, b]).set l.length c = l ++ [c, b] := by
  induction l with
  | nil => simp
  | cons x xs ih => simpa using ih

theorem set2_right {α : Type} (l : List α) (a b c : α) :
    (l ++ [a, b]).set (l.length + 1) c = l ++ [a, c] := by
  induction l with
  | nil => simp
  | cons x xs ih => simpa using ih

theorem get_set_self {α : Type} (l : List α) (i : Nat) (x : α) (h : i < l.length) :
    (l.set i x)[i]? = some x := by
  induction l generalizing i with
  | nil => simp at h
  | cons y ys ih =>
    cases i with
    | zero => simp
    | succ i => simpa using ih i (by simpa using h)

theorem get_set_ne {α : Type} (l : List α) (i j : Nat) (x : α) (h : i ≠ j) :
    (l.set i x)[j]? = l[j]? := by
  induction l generalizing i j with
  | nil => simp
  | cons y ys ih =>
    cases i with
    | zero => cases j with
      | zero => exact absurd rfl h
      | succ j => simp
    | succ i => cases j with
      | zero => simp
      | succ j => simpa using ih i j (fun hh => h (by omega))

theorem length_set_eq {α : Type} (l : List α) (i : Nat) (x : α) :
    (l.set i x).length = l.length := by simp

theorem lookupMap_mem (m : List (Coordinate × Nat)) (k : Coordinate) (v : Nat)
    (h : lookupMap m k = some v) : (k, v) ∈ m := by
  induction m with
  | nil => simp [lookupMap] at h
  | cons p rest ih =>
    rcases p with ⟨k0, v0⟩
    by_cases hk : k0 = k
    · subst hk
      simp [lookupMap] at h
      subst h
      exact List.mem_cons_self _ _
    · simp [lookupMap, hk] at h
      exact List.mem_cons_of_mem _ (ih h)

theorem mem_lookupMap (m : List (Coordinate × Nat)) (k : Coordinate) (v : Nat)
    (hnd : (m.map Prod.fst).Nodup) (h : (k, v) ∈ m) : lookupMap m k = some v := by
  induction m with
  | nil => simp at h
  | cons p rest ih =>
    rcases p with ⟨k0, v0⟩
    simp only [List.map_cons, List.nodup_cons] at hnd
    rcases List.mem_cons.1 h with h1 | h1
    · cases h1
      simp [lookupMap]
    · have hk : k0 ≠ k := by
        intro he
        subst he
        exact hnd.1 (List.mem_map.2 ⟨(k0, v), h1, rfl⟩)
      simp [lookupMap, hk]
      exact ih hnd.2 h1

theorem mapInsert_cons_eq (k : Coordinate) (v0 v : Nat) (rest : List (Coordinate × Nat)) :
    mapInsert ((k, v0) :: rest) k v = (k, v) :: rest := by
  simp [mapInsert]

theorem mapInsert_cons_ne (k0 k : Coordinate) (v0 v : Nat) (rest : List (Coordinate × Nat))
    (hk : k0 ≠ k) :
    mapInsert ((k0, v0) :: rest) k v = (k0, v0) :: mapInsert rest k v := by
  simp [mapInsert, hk]

theorem lookup_mapInsert_self (m : List (Coordinate × Nat)) (k : Coordinate) (v : Nat) :
    lookupMap (mapInsert m k v) k = some v := by
  induction m with
  | nil => simp [mapInsert, lookupMap]
  | cons p rest ih =>
    rcases p with ⟨k0, v0⟩
    by_cases hk : k0 = k
    · simp [mapInsert, hk, lookupMap]
    · simp [mapInsert, hk, lookupMap, ih]

theorem lookup_mapInsert_ne (m : List (Coordinate × Nat)) (k q : Coordinate) (v : Nat)
    (h : q ≠ k) : lookupMap (mapInsert m k v) q = lookupMap m q := by
  have h2 : ¬ k = q := fun hh => h hh.symm
  induction m with
  | nil => simp [mapInsert, lookupMap, h2]
  | cons p rest ih =>
    rcases p with ⟨k0, v0⟩
    by_cases hk : k0 = k
    · subst hk
      simp [mapInsert, lookupMap, h2]
    · by_cases hq : k0 = q
      · simp [mapInsert, hk, lookupMap, hq, h2, h]
      · simp [mapInsert, hk, lookupMap, hq, ih]

theorem mem_mapInsert (m : List (Coordinate × Nat)) (k : Coordinate) (v : Nat)
    (p : Coordinate × Nat) (h : p ∈ mapInsert m k v) :
    p = (k, v) ∨ p ∈ m := by
  induction m with
  | nil => simp [mapInsert] at h; left; simpa using h
  | cons q rest ih =>
    rcases q with ⟨k0, v0⟩
    by_cases hk : k0 = k
    · subst hk
      simp only [mapInsert, if_pos rfl] at h
      rcases List.mem_cons.1 h with h1 | h1
      · left; exact h1
      · right; exact List.mem_cons_of_mem _ h1
    · simp only [mapInsert, if_neg hk] at h
      rcases List.mem_cons.1 h with h1 | h1
      · right; subst h1; exact List.mem_cons_self _ _
      · rcases ih h1 with h2 | h2
        · left; exact h2
        · right; exact List.mem_cons_of_mem _ h2

theorem lookup_none_not_mem (m : List (Coordinate × Nat)) (k : Coordinate)
    (h : lookupMap m k = none) : ∀ v, (k, v) ∉ m := by
  induction m with
  | nil => simp
  | cons q rest ih =>
    rcases q with ⟨k0, v0⟩
    by_cases hk : k0 = k
    · subst hk; simp [lookupMap] at h
    · simp only [lookupMap, if_neg hk] at h
      intro v hv
      rcases List.mem_cons.1 hv with h1 | h1
      · exact hk (congrArg Prod.fst h1).symm
      · exact ih h v h1

theorem keys_mapInsert (m : List (Coordinate × Nat)) (k : Coordinate) (v : Nat)
    (q : Coordinate) :
    q ∈ (mapInsert m k v).map Prod.fst ↔ (q = k ∨ q ∈ m.map Prod.fst) := by
  induction m with
  | nil => simp [mapInsert]
  | cons p rest ih =>
    rcases p with ⟨k0, v0⟩
    by_cases hk : k0 = k
    · subst hk
      rw [mapInsert_cons_eq]
      simp only [List.map_cons, List.mem_cons]
      tauto
    · rw [mapInsert_cons_ne _ _ _ _ _ hk]
      simp only [List.map_cons, List.mem_cons]
      rw [ih]
      tauto

theorem mapInsert_keysNodup (m : List (Coordinate × Nat)) (k : Coordinate) (v : Nat)
    (hnd : (m.map Prod.fst).Nodup) : ((mapInsert m k v).map Prod.fst).Nodup := by
  induction m with
  | nil => simp [mapInsert]
  | cons p rest ih =>
    rcases p with ⟨k0, v0⟩
    simp only [List.map_cons, List.nodup_cons] at hnd
    by_cases hk : k0 = k
    · subst hk
      rw [mapInsert_cons_eq]
      simp only [List.map_cons, List.nodup_cons]
      exact ⟨hnd.1, hnd.2⟩
    · rw [mapInsert_cons_ne _ _ _ _ _ hk]
      simp only [List.map_cons, List.nodup_cons]
      constructor
      · rw [keys_mapInsert]
        rintro (h1 | h1)
        · exact hk h1
        · exact hnd.1 h1
      · exact ih hnd.2

theorem traj_length (f : Nat → Nat) (r m : Nat) : (traj f r m).length = m := by
  simp [traj]

theorem mem_traj (f : Nat → Nat) (r m j : Nat) :
    j ∈ traj f r m ↔ ∃ k, k < m ∧ f^[k] r = j := by
  simp only [traj, List.mem_map, List.mem_range]

theorem traj_getElem (f : Nat → Nat) (r m k : Nat) (h : k < m) :
    (traj f r m)[k]? = some (f^[k] r) := by
  simp only [traj, List.getElem?_map]
  rw [List.getElem?_range h]
  rfl

theorem traj_nodup_inj (f : Nat → Nat) (r m : Nat) (hnd : (traj f r m).Nodup)
    (i j : Nat) (hi : i < m) (hj : j < m) (h : f^[i] r = f^[j] r) : i = j := by
  have hlen : (traj f r m).length = m := traj_length f r m
  have hgi : (traj f r m)[i]? = some (f^[i] r) := traj_getElem f r m i hi
  have hgj : (traj f r m)[j]? = some (f^[j] r) := traj_getElem f r m j hj
  exact List.getElem?_inj (show i < (traj f r m).length by omega) hnd
    (show (traj f r m)[i]? = (traj f r m)[j]? by rw [hgi, hgj, h])

theorem traj_succ_head (f : Nat → Nat) (r m : Nat) :
    traj f r (m + 1) = r :: (List.range m).map (fun k => f^[k + 1] r) := by
  simp only [traj, List.range_succ_eq_map, List.map_cons, Function.iterate_zero_apply,
    List.map_map]
  rfl

theorem iterate_congr_le (f fn : Nat → Nat) (r m : Nat)
    (h : ∀ k, k < m → fn (f^[k] r) = f (f^[k] r)) :
    ∀ k, k ≤ m → fn^[k] r = f^[k] r := by
  intro k hk
  induction k with
  | zero => simp
  | succ n ih =>
    rw [Function.iterate_succ_apply', Function.iterate_succ_apply',
      ih (by omega), h n (by omega)]

theorem traj_congr (f fn : Nat → Nat) (r m : Nat)
    (h : ∀ k, k < m → fn (f^[k] r) = f (f^[k] r)) :
    traj fn r m = traj f r m := by
  apply List.map_congr_left
  intro k hk
  exact iterate_congr_le f fn r m h k (le_of_lt (List.mem_range.1 hk))

theorem iterate_splice (f fn : Nat → Nat) (r e d : Nat)
    (h1 : fn r = e) (h2 : fn e = f r)
    (h3 : ∀ k, 0 < k → k < d → fn (f^[k] r) = f (f^[k] r)) :
    ∀ k, 1 ≤ k → k ≤ d → fn^[k + 1] r = f^[k] r := by
  intro k hk1 hkd
  induction k with
  | zero => omega
  | succ n ih =>
    rcases Nat.eq_zero_or_pos n with hn | hn
    · subst hn
      simp only [Function.iterate_succ_apply', Function.iterate_zero_apply]
      rw [h1, h2]
    · rw [show fn^[n + 1 + 1] r = fn (fn^[n + 1] r) from
        Function.iterate_succ_apply' fn (n + 1) r,
        ih (by omega) (by omega), h3 n hn (by omega)]
      exact (Function.iterate_succ_apply' f n r).symm

theorem traj_splice (f fn : Nat → Nat) (r e m : Nat)
    (h1 : fn r = e) (h2 : fn e = f r)
    (h3 : ∀ k, 0 < k → k < m + 1 → fn (f^[k] r) = f (f^[k] r)) :
    traj fn r (m + 2) = r :: e :: (List.range m).map (fun k => f^[k + 1] r) := by
  rw [traj_succ_head]
  congr 1
  rw [List.range_succ_eq_map, List.map_cons]
  simp only [Function.iterate_one, h1, List.map_map]
  congr 1
  apply List.map_congr_left
  intro k hk
  have hk2 : k < m := List.mem_range.1 hk
  have := iterate_splice f fn r e (m + 1) h1 h2 h3 (k + 1) (by omega) (by omega)
  simpa [Function.comp] using this

theorem RingAt_untouched (g g2 : EdgeGraph) (v : Coordinate) (r : Nat)
    (hring : RingAt g v r)
    (hdeg : degree g2 v = degree g v)
    (hnext : ∀ j, j < g.edges.length → origAt g j = v → nextAt g2 j = nextAt g j)
    (hmem : ∀ x, (x < g2.edges.length ∧ origAt g2 x = v) ↔
      (x < g.edges.length ∧ origAt g x = v)) :
    RingAt g2 v r := by
  obtain ⟨hclose, hnd, hm⟩ := hring
  have hcongr : ∀ k, k < degree g v →
      nextAt g2 ((nextAt g)^[k] r) = nextAt g ((nextAt g)^[k] r) := by
    intro k hk
    have hmemk : (nextAt g)^[k] r ∈ traj (nextAt g) r (degree g v) :=
      (mem_traj _ _ _ _).2 ⟨k, hk, rfl⟩
    obtain ⟨hb, ho⟩ := (hm _).1 hmemk
    exact hnext _ hb ho
  have htraj : traj (nextAt g2) r (degree g v) = traj (nextAt g) r (degree g v) :=
    traj_congr _ _ r _ hcongr
  refine ⟨?_, ?_, ?_⟩
  · rw [hdeg, iterate_congr_le _ _ r _ hcongr _ (le_refl _), hclose]
  · rw [hdeg, htraj]; exact hnd
  · intro j
    rw [hdeg, htraj, hm j, hmem j]

theorem RingAt_spliced (g g2 : EdgeGraph) (v : Coordinate) (r e : Nat)
    (hring : RingAt g v r)
    (hrv : r < g.edges.length) (horig : origAt g r = v)
    (hdeg : degree g2 v = degree g v + 1)
    (h1 : nextAt g2 r = e) (h2 : nextAt g2 e = nextAt g r)
    (h3 : ∀ j, j < g.edges.length → origAt g j = v → j ≠ r → nextAt g2 j = nextAt g j)
    (he : ¬ (e < g.edges.length ∧ origAt g e = v))
    (hmem : ∀ x, (x < g2.edges.length ∧ origAt g2 x = v) ↔
      (x = e ∨ (x < g.edges.length ∧ origAt g x = v))) :
    RingAt g2 v r := by
  obtain ⟨hclose, hnd, hm⟩ := hring
  have hrd : 0 < degree g v := by
    have : r ∈ traj (nextAt g) r (degree g v) := (hm r).2 ⟨hrv, horig⟩
    rcases (mem_traj _ _ _ _).1 this with ⟨k, hk, _⟩
    omega
  obtain ⟨m, hmd⟩ : ∃ m, degree g v = m + 1 := ⟨degree g v - 1, by omega⟩
  have h2' : nextAt g2 e = (nextAt g) r := h2
  have h3' : ∀ k, 0 < k → k < m + 1 →
      nextAt g2 ((nextAt g)^[k] r) = nextAt g ((nextAt g)^[k] r) := by
    intro k hk0 hk
    have hmemk : (nextAt g)^[k] r ∈ traj (nextAt g) r (degree g v) :=
      (mem_traj _ _ _ _).2 ⟨k, by omega, rfl⟩
    obtain ⟨hb, ho⟩ := (hm _).1 hmemk
    refine h3 _ hb ho ?_
    intro heq
    have : k = 0 := by
      apply traj_nodup_inj (nextAt g) r (degree g v) hnd k 0 (by omega) (by omega)
      simpa using heq
    omega
  have htraj2 : traj (nextAt g2) r (m + 2) =
      r :: e :: (List.range m).map (fun k => (nextAt g)^[k + 1] r) :=
    traj_splice (nextAt g) (nextAt g2) r e m h1 h2' h3'
  have htraj1 : traj (nextAt g) r (m + 1) =
      r :: (List.range m).map (fun k => (nextAt g)^[k + 1] r) :=
    traj_succ_head _ r m
  have henotin : e ∉ traj (nextAt g) r (degree g v) := by
    intro hin
    exact he ((hm e).1 hin)
  have hclose2 : (nextAt g2)^[m + 2] r = r := by
    have := iterate_splice (nextAt g) (nextAt g2) r e (m + 1) h1 h2' h3'
      (m + 1) (by omega) (le_refl _)
    rw [this, ← hmd, hclose]
  refine ⟨?_, ?_, ?_⟩
  · rw [hdeg, hmd]
    exact hclose2
  · rw [hdeg, hmd, htraj2]
    have hnd1 : (r :: (List.range m).map (fun k => (nextAt g)^[k + 1] r)).Nodup := by
      rw [← htraj1, ← hmd]; exact hnd
    have hein : e ∉ r :: (List.range m).map (fun k => (nextAt g)^[k + 1] r) := by
      rw [← htraj1, ← hmd]; exact henotin
    rw [List.nodup_cons] at hnd1
    simp only [List.mem_cons] at hein
    push_neg at hein
    simp only [List.nodup_cons, List.mem_cons]
    push_neg
    exact ⟨⟨fun hh => hein.1 hh.symm, hnd1.1⟩, hein.2, hnd1.2⟩
  · intro j
    rw [hdeg, hmd, htraj2, hmem j]
    have : (j ∈ traj (nextAt g) r (degree g v)) ↔
        (j < g.edges.length ∧ origAt g j = v) := hm j
    rw [hmd, htraj1] at this
    simp only [List.mem_cons] at this ⊢
    rw [← this]
    tauto

theorem degree_le (g : EdgeGraph) (v : Coordinate) : degree g v ≤ g.edges.length := by
  have h := List.length_filter_le (fun j => decide (origAt g j = v)) (List.range g.edges.length)
  simpa [degree] using h

theorem findLoop_correct (g : EdgeGraph) (v : Coordinate) (r : Nat) (c : Coordinate)
    (hclose : (nextAt g)^[degree g v] r = r)
    (hnd : (traj (nextAt g) r (degree g v)).Nodup) :
    ∀ fuel k, k < degree g v → degree g v - k ≤ fuel →
      (∀ j, findLoop g c r ((nextAt g)^[k] r) fuel = some j →
        ∃ m2, k ≤ m2 ∧ m2 < degree g v ∧ (nextAt g)^[m2] r = j ∧ destAt g j = c)
      ∧ (findLoop g c r ((nextAt g)^[k] r) fuel = none →
        ∀ m2, k ≤ m2 → m2 < degree g v → destAt g ((nextAt g)^[m2] r) ≠ c) := by
  intro fuel
  induction fuel with
  | zero => intro k hk hf; omega
  | succ fl ih =>
    intro k hk hf
    by_cases hdest : destAt g ((nextAt g)^[k] r) = c
    · constructor
      · intro j hj
        simp only [findLoop, if_pos hdest, Option.some_inj] at hj
        exact ⟨k, le_refl k, hk, hj, by rw [hj] at hdest; exact hdest⟩
      · intro hnone
        simp only [findLoop, if_pos hdest] at hnone
        exact absurd hnone (by simp)
    · have hnxt : nextAt g ((nextAt g)^[k] r) = (nextAt g)^[k + 1] r :=
        (Function.iterate_succ_apply' _ k r).symm
      by_cases hstart : (nextAt g)^[k + 1] r = r
      · have hk1 : k + 1 = degree g v := by
          rcases Nat.lt_or_ge (k + 1) (degree g v) with hlt | hge
          · exfalso
            have h0 : (nextAt g)^[k + 1] r = (nextAt g)^[0] r := by
              simpa using hstart
            have := traj_nodup_inj (nextAt g) r (degree g v) hnd (k + 1) 0 hlt
              (by omega) h0
            omega
          · omega
        have heval : findLoop g c r ((nextAt g)^[k] r) (fl + 1) = none := by
          simp only [findLoop, if_neg hdest]
          rw [hnxt, if_pos hstart]
        constructor
        · intro j hj
          rw [heval] at hj
          exact absurd hj (by simp)
        · intro _ m2 hm2k hm2d
          have hm2 : m2 = k := by omega
          rw [hm2]
          exact hdest
      · have hk1d : k + 1 < degree g v := by
          rcases Nat.lt_or_ge (k + 1) (degree g v) with h | h
          · exact h
          · exfalso
            have : k + 1 = degree g v := by omega
            rw [this] at hstart
            exact hstart hclose
        have heval : findLoop g c r ((nextAt g)^[k] r) (fl + 1) =
            findLoop g c r ((nextAt g)^[k + 1] r) fl := by
          simp only [findLoop, if_neg hdest]
          rw [hnxt, if_neg hstart]
        have hrec := ih (k + 1) hk1d (by omega)
        constructor
        · intro j hj
          rw [heval] at hj
          obtain ⟨m2, hm1, hm2, hm3, hm4⟩ := hrec.1 j hj
          exact ⟨m2, by omega, hm2, hm3, hm4⟩
        · intro hnone m2 hm2k hm2d
          rw [heval] at hnone
          rcases Nat.eq_or_lt_of_le hm2k with hh | hh
          · rw [← hh]
            exact hdest
          · exact hrec.2 hnone m2 (by omega) hm2d

theorem findHE_correct (g : EdgeGraph) (v : Coordinate) (r : Nat) (c : Coordinate)
    (hring : RingAt g v r) (hrv : r < g.edges.length) (horig : origAt g r = v) :
    (∀ j, findHE g r c = some j →
      j < g.edges.length ∧ origAt g j = v ∧ destAt g j = c)
    ∧ (findHE g r c = none →
      ∀ j, j < g.edges.length → origAt g j = v → destAt g j ≠ c) := by
  obtain ⟨hclose, hnd, hm⟩ := hring
  have hdpos : 0 < degree g v := by
    have : r ∈ traj (nextAt g) r (degree g v) := (hm r).2 ⟨hrv, horig⟩
    rcases (mem_traj _ _ _ _).1 this with ⟨k, hk, _⟩
    omega
  have hfuel : degree g v - 0 ≤ g.edges.length := by
    have := degree_le g v
    omega
  have h0 : (nextAt g)^[0] r = r := rfl
  have hmain := findLoop_correct g v r c hclose hnd g.edges.length 0 hdpos hfuel
  rw [h0] at hmain
  constructor
  · intro j hj
    obtain ⟨m2, _, hm2d, hm2e, hm2c⟩ := hmain.1 j hj
    have : j ∈ traj (nextAt g) r (degree g v) := (mem_traj _ _ _ _).2 ⟨m2, hm2d, hm2e⟩
    obtain ⟨hb, ho⟩ := (hm j).1 this
    exact ⟨hb, ho, hm2c⟩
  · intro hnone j hb ho
    have : j ∈ traj (nextAt g) r (degree g v) := (hm j).2 ⟨hb, ho⟩
    rcases (mem_traj _ _ _ _).1 this with ⟨k, hk, hkj⟩
    have := hmain.2 hnone k (by omega) hk
    rw [hkj] at this
    exact this

theorem get_of_lt (g : EdgeGraph) (j : Nat) (h : j < g.edges.length) :
    g.edges[j]? = some (heAt g j) := by
  rw [heAt, List.getElem?_eq_getElem h]
  simp

theorem heAt_congr (g g2 : EdgeGraph) (j : Nat) (h : g2.edges[j]? = g.edges[j]?) :
    heAt g2 j = heAt g j := by
  simp [heAt, h]

theorem heAt_of_get (g : EdgeGraph) (j : Nat) (he : HalfEdge)
    (h : g.edges[j]? = some he) : heAt g j = he := by
  simp [heAt, h]

theorem origAt_of_get (g : EdgeGraph) (j : Nat) (he : HalfEdge)
    (h : g.edges[j]? = some he) : origAt g j = he.orig := by
  simp [origAt, heAt, h]

theorem symAt_of_get (g : EdgeGraph) (j : Nat) (he : HalfEdge)
    (h : g.edges[j]? = some he) : symAt g j = he.sym.getD j := by
  simp [symAt, heAt, h]

theorem nextAt_of_get (g : EdgeGraph) (j : Nat) (he : HalfEdge)
    (h : g.edges[j]? = some he) : nextAt g j = he.next.getD j := by
  simp [nextAt, heAt, h]

theorem getElem2_left {α : Type} (l : List α) (a b : α) (h : l.length < (l ++ [a, b]).length) :
    (l ++ [a, b])[l.length] = a := by
  have h2 := get2_left l a b
  rw [List.getElem?_eq_getElem h] at h2
  exact Option.some_inj.1 h2

theorem getElem2_right {α : Type} (l : List α) (a b : α)
    (h : l.length + 1 < (l ++ [a, b]).length) :
    (l ++ [a, b])[l.length + 1] = b := by
  have h2 := get2_right l a b
  rw [List.getElem?_eq_getElem h] at h2
  exact Option.some_inj.1 h2

theorem create_eq (g : EdgeGraph) (p0 p1 : Coordinate) :
    create g p0 p1 =
      (⟨g.edges ++
        [{ orig := p0, sym := some (g.edges.length + 1), next := some g.edges.length },
         { orig := p1, sym := some g.edges.length, next := some (g.edges.length + 1) }],
        g.vertexMap⟩, g.edges.length) := by
  simp [create, createEdge, link, get2_left, get2_right, set2_left, set2_right,
    getElem2_left, getElem2_right]

theorem spliceAfter_spec (g : EdgeGraph) (s e : Nat) (hs : s < g.edges.length)
    (he : e < g.edges.length) (hne : s ≠ e) :
    (spliceAfter g s e).vertexMap = g.vertexMap
    ∧ (spliceAfter g s e).edges.length = g.edges.length
    ∧ (∀ j, j ≠ s → j ≠ e → (spliceAfter g s e).edges[j]? = g.edges[j]?)
    ∧ (spliceAfter g s e).edges[s]? = some { heAt g s with next := some e }
    ∧ (spliceAfter g s e).edges[e]? = some { heAt g e with next := (heAt g s).next } := by
  have hgs := get_of_lt g s hs
  have hge := get_of_lt g e he
  have hedges : (spliceAfter g s e).edges =
      (g.edges.set e { heAt g e with next := (heAt g s).next }).set s
        { heAt g s with next := some e } := by
    simp only [spliceAfter, hgs, hge]
  have hmap : (spliceAfter g s e).vertexMap = g.vertexMap := by
    simp only [spliceAfter, hgs, hge]
  refine ⟨hmap, ?_, ?_, ?_, ?_⟩
  · rw [hedges]; simp
  · intro j hjs hje
    rw [hedges, get_set_ne _ _ _ _ (fun hh => hjs hh.symm),
      get_set_ne _ _ _ _ (fun hh => hje hh.symm)]
  · rw [hedges]
    exact get_set_self _ _ _ (by simpa using hs)
  · rw [hedges, get_set_ne _ _ _ _ hne]
    exact get_set_self _ _ _ he

theorem create_facts (g : EdgeGraph) (p0 p1 : Coordinate) :
    (create g p0 p1).2 = g.edges.length
    ∧ (create g p0 p1).1.vertexMap = g.vertexMap
    ∧ (create g p0 p1).1.edges.length = g.edges.length + 2
    ∧ (∀ j, j ≠ g.edges.length → j ≠ g.edges.length + 1 →
        (create g p0 p1).1.edges[j]? = g.edges[j]?)
    ∧ (create g p0 p1).1.edges[g.edges.length]? =
        some { orig := p0, sym := some (g.edges.length + 1), next := some g.edges.length }
    ∧ (create g p0 p1).1.edges[g.edges.length + 1]? =
        some { orig := p1, sym := some g.edges.length, next := some (g.edges.length + 1) } := by
  rw [create_eq]
  refine ⟨rfl, rfl, by simp, ?_, get2_left _ _ _, get2_right _ _ _⟩
  intro j hj1 hj2
  rcases Nat.lt_or_ge j g.edges.length with h | h
  · exact get_append_lt _ _ _ h
  · have hj : g.edges.length + 2 ≤ j := by omega
    rw [List.getElem?_eq_none (by simpa using hj), List.getElem?_eq_none (by omega)]

theorem insertDest_some (g2 : EdgeGraph) (dest : Coordinate) (e ad : Nat)
    (h : lookupMap g2.vertexMap dest = some ad) :
    insertDest g2 dest e = (spliceAfter g2 ad (symAt g2 e), e) := by
  simp only [insertDest, h]

theorem insertDest_none (g2 : EdgeGraph) (dest : Coordinate) (e : Nat)
    (h : lookupMap g2.vertexMap dest = none) :
    insertDest g2 dest e =
      ({ g2 with vertexMap := mapInsert g2.vertexMap dest (symAt g2 e) }, e) := by
  simp only [insertDest, h]

theorem insertPair_some (g : EdgeGraph) (o d : Coordinate) (a : Nat) :
    insertPair g o d (some a) =
      insertDest (spliceAfter (create g o d).1 a (create g o d).2) d (create g o d).2 := by
  simp only [insertPair]

theorem insertPair_none (g : EdgeGraph) (o d : Coordinate) :
    insertPair g o d none =
      insertDest
        { (create g o d).1 with
          vertexMap := mapInsert (create g o d).1.vertexMap o (create g o d).2 }
        d (create g o d).2 := by
  simp only [insertPair]

theorem insertPair_ss (g : EdgeGraph) (o d : Coordinate) (a ad : Nat)
    (had : lookupMap g.vertexMap d = some ad)
    (haN : a < g.edges.length) (hadN : ad < g.edges.length) (hne : a ≠ ad) :
    (insertPair g o d (some a)).2 = g.edges.length
    ∧ (insertPair g o d (some a)).1.vertexMap = g.vertexMap
    ∧ (insertPair g o d (some a)).1.edges.length = g.edges.length + 2
    ∧ (∀ j, j ≠ a → j ≠ ad → j ≠ g.edges.length → j ≠ g.edges.length + 1 →
        (insertPair g o d (some a)).1.edges[j]? = g.edges[j]?)
    ∧ (insertPair g o d (some a)).1.edges[a]? =
        some { heAt g a with next := some g.edges.length }
    ∧ (insertPair g o d (some a)).1.edges[ad]? =
        some { heAt g ad with next := some (g.edges.length + 1) }
    ∧ (insertPair g o d (some a)).1.edges[g.edges.length]? =
        some { orig := o, sym := some (g.edges.length + 1), next := (heAt g a).next }
    ∧ (insertPair g o d (some a)).1.edges[g.edges.length + 1]? =
        some { orig := d, sym := some g.edges.length, next := (heAt g ad).next } := by
  obtain ⟨hc2, hcmap, hclen, hcold, hcN, hcN1⟩ := create_facts g o d
  rw [insertPair_some, hc2]
  obtain ⟨hs1map, hs1len, hs1old, hs1self, hs1e⟩ :=
    spliceAfter_spec (create g o d).1 a g.edges.length
      (by rw [hclen]; omega) (by rw [hclen]; omega) (by omega)
  have hg1a : heAt (create g o d).1 a = heAt g a :=
    heAt_congr _ _ _ (hcold a (by omega) (by omega))
  have hg1N : heAt (create g o d).1 g.edges.length =
      { orig := o, sym := some (g.edges.length + 1), next := some g.edges.length } :=
    heAt_of_get _ _ _ hcN
  have hg1N1 : heAt (create g o d).1 (g.edges.length + 1) =
      { orig := d, sym := some g.edges.length, next := some (g.edges.length + 1) } :=
    heAt_of_get _ _ _ hcN1
  have hlook : lookupMap (spliceAfter (create g o d).1 a g.edges.length).vertexMap d =
      some ad := by
    rw [hs1map, hcmap]; exact had
  have hsym2 : symAt (spliceAfter (create g o d).1 a g.edges.length) g.edges.length =
      g.edges.length + 1 := by
    rw [symAt_of_get _ _ _ hs1e, hg1N]
    rfl
  rw [insertDest_some _ _ _ _ hlook, hsym2]
  obtain ⟨hs2map, hs2len, hs2old, hs2self, hs2e⟩ :=
    spliceAfter_spec (spliceAfter (create g o d).1 a g.edges.length) ad (g.edges.length + 1)
      (by rw [hs1len, hclen]; omega) (by rw [hs1len, hclen]; omega) (by omega)
  have hg2ad : heAt (spliceAfter (create g o d).1 a g.edges.length) ad = heAt g ad := by
    apply heAt_congr
    rw [hs1old ad (fun hh => hne hh.symm) (by omega), hcold ad (by omega) (by omega)]
  have hg2N1 : heAt (spliceAfter (create g o d).1 a g.edges.length) (g.edges.length + 1) =
      { orig := d, sym := some g.edges.length, next := some (g.edges.length + 1) } := by
    rw [heAt_congr _ _ _ (hs1old (g.edges.length + 1) (by omega) (by omega)), hg1N1]
  refine ⟨rfl, ?_, ?_, ?_, ?_, ?_, ?_, ?_⟩
  · simp only [hs2map, hs1map, hcmap]
  · simp only [hs2len, hs1len, hclen]
  · intro j hja hjad hjN hjN1
    simp only [hs2old j hjad hjN1, hs1old j hja hjN, hcold j hjN hjN1]
  · rw [hs2old a hne (by omega), hs1self, hg1a]
  · rw [hs2self, hg2ad]
  · rw [hs2old g.edges.length (by omega) (by omega), hs1e, hg1N, hg1a]
  · rw [hs2e, hg2N1, hg2ad]

theorem insertPair_sn (g : EdgeGraph) (o d : Coordinate) (a : Nat)
    (had : lookupMap g.vertexMap d = none)
    (haN : a < g.edges.length) :
    (insertPair g o d (some a)).2 = g.edges.length
    ∧ (insertPair g o d (some a)).1.vertexMap =
        mapInsert g.vertexMap d (g.edges.length + 1)
    ∧ (insertPair g o d (some a)).1.edges.length = g.edges.length + 2
    ∧ (∀ j, j ≠ a → j ≠ g.edges.length → j ≠ g.edges.length + 1 →
        (insertPair g o d (some a)).1.edges[j]? = g.edges[j]?)
    ∧ (insertPair g o d (some a)).1.edges[a]? =
        some { heAt g a with next := some g.edges.length }
    ∧ (insertPair g o d (some a)).1.edges[g.edges.length]? =
        some { orig := o, sym := some (g.edges.length + 1), next := (heAt g a).next }
    ∧ (insertPair g o d (some a)).1.edges[g.edges.length + 1]? =
        some { orig := d, sym := some g.edges.length, next := some (g.edges.length + 1) } := by
  obtain ⟨hc2, hcmap, hclen, hcold, hcN, hcN1⟩ := create_facts g o d
  rw [insertPair_some, hc2]
  obtain ⟨hs1map, hs1len, hs1old, hs1self, hs1e⟩ :=
    spliceAfter_spec (create g o d).1 a g.edges.length
      (by rw [hclen]; omega) (by rw [hclen]; omega) (by omega)
  have hg1a : heAt (create g o d).1 a = heAt g a :=
    heAt_congr _ _ _ (hcold a (by omega) (by omega))
  have hg1N : heAt (create g o d).1 g.edges.length =
      { orig := o, sym := some (g.edges.length + 1), next := some g.edges.length } :=
    heAt_of_get _ _ _ hcN
  have hlook : lookupMap (spliceAfter (create g o d).1 a g.edges.length).vertexMap d =
      none := by
    rw [hs1map, hcmap]; exact had
  have hsym2 : symAt (spliceAfter (create g o d).1 a g.edges.length) g.edges.length =
      g.edges.length + 1 := by
    rw [symAt_of_get _ _ _ hs1e, hg1N]
    rfl
  rw [insertDest_none _ _ _ hlook, hsym2]
  refine ⟨rfl, ?_, ?_, ?_, ?_, ?_, ?_⟩
  · simp only [hs1map, hcmap]
  · simp only [hs1len, hclen]
  · intro j hja hjN hjN1
    simp only [hs1old j hja hjN, hcold j hjN hjN1]
  · rw [hs1self, hg1a]
  · rw [hs1e, hg1N, hg1a]
  · rw [hs1old (g.edges.length + 1) (by omega) (by omega), hcN1]

theorem insertPair_ns (g : EdgeGraph) (o d : Coordinate) (ad : Nat)
    (had : lookupMap g.vertexMap d = some ad)
    (hadN : ad < g.edges.length) (hod : d ≠ o) :
    (insertPair g o d none).2 = g.edges.length
    ∧ (insertPair g o d none).1.vertexMap = mapInsert g.vertexMap o g.edges.length
    ∧ (insertPair g o d none).1.edges.length = g.edges.length + 2
    ∧ (∀ j, j ≠ ad → j ≠ g.edges.length → j ≠ g.edges.length + 1 →
        (insertPair g o d none).1.edges[j]? = g.edges[j]?)
    ∧ (insertPair g o d none).1.edges[ad]? =
        some { heAt g ad with next := some (g.edges.length + 1) }
    ∧ (insertPair g o d none).1.edges[g.edges.length]? =
        some { orig := o, sym := some (g.edges.length + 1), next := some g.edges.length }
    ∧ (insertPair g o d none).1.edges[g.edges.length + 1]? =
        some { orig := d, sym := some g.edges.length, next := (heAt g ad).next } := by
  obtain ⟨hc2, hcmap, hclen, hcold, hcN, hcN1⟩ := create_facts g o d
  rw [insertPair_none, hc2, hcmap]
  have hlook : lookupMap
      { (create g o d).1 with vertexMap := mapInsert g.vertexMap o g.edges.length }.vertexMap
      d = some ad := by
    simp only []
    rw [lookup_mapInsert_ne _ _ _ _ hod]
    exact had
  have hcN2 : ({ (create g o d).1 with
      vertexMap := mapInsert g.vertexMap o g.edges.length } : EdgeGraph).edges[g.edges.length]? =
      some { orig := o, sym := some (g.edges.length + 1), next := some g.edges.length } := hcN
  have hsym2 : symAt
      { (create g o d).1 with vertexMap := mapInsert g.vertexMap o g.edges.length }
      g.edges.length = g.edges.length + 1 := by
    rw [symAt_of_get _ _ _ hcN2]
    rfl
  rw [insertDest_some _ _ _ _ hlook, hsym2]
  obtain ⟨hs2map, hs2len, hs2old, hs2self, hs2e⟩ :=
    spliceAfter_spec
      { (create g o d).1 with vertexMap := mapInsert g.vertexMap o g.edges.length }
      ad (g.edges.length + 1)
      (by simp only []; rw [hclen]; omega) (by simp only []; rw [hclen]; omega) (by omega)
  have hg2ad : heAt
      { (create g o d).1 with vertexMap := mapInsert g.vertexMap o g.edges.length } ad =
      heAt g ad := by
    apply heAt_congr
    simp only []
    rw [hcold ad (by omega) (by omega)]
  have hg2N1 : heAt
      { (create g o d).1 with vertexMap := mapInsert g.vertexMap o g.edges.length }
      (g.edges.length + 1) =
      { orig := d, sym := some g.edges.length, next := some (g.edges.length + 1) } := by
    apply heAt_of_get
    simp only []
    exact hcN1
  refine ⟨rfl, ?_, ?_, ?_, ?_, ?_, ?_⟩
  · rw [hs2map]
  · simp only [hs2len]
    rw [hclen]
  · intro j hjad hjN hjN1
    rw [hs2old j hjad hjN1]
    simp only []
    rw [hcold j hjN hjN1]
  · rw [hs2self, hg2ad]
  · rw [hs2old g.edges.length (by omega) (by omega)]
    simp only []
    exact hcN
  · rw [hs2e, hg2N1, hg2ad]

theorem insertPair_nn (g : EdgeGraph) (o d : Coordinate)
    (had : lookupMap g.vertexMap d = none) (hod : d ≠ o) :
    (insertPair g o d none).2 = g.edges.length
    ∧ (insertPair g o d none).1.vertexMap =
        mapInsert (mapInsert g.vertexMap o g.edges.length) d (g.edges.length + 1)
    ∧ (insertPair g o d none).1.edges.length = g.edges.length + 2
    ∧ (∀ j, j ≠ g.edges.length → j ≠ g.edges.length + 1 →
        (insertPair g o d none).1.edges[j]? = g.edges[j]?)
    ∧ (insertPair g o d none).1.edges[g.edges.length]? =
        some { orig := o, sym := some (g.edges.length + 1), next := some g.edges.length }
    ∧ (insertPair g o d none).1.edges[g.edges.length + 1]? =
        some { orig := d, sym := some g.edges.length, next := some (g.edges.length + 1) } := by
  obtain ⟨hc2, hcmap, hclen, hcold, hcN, hcN1⟩ := create_facts g o d
  rw [insertPair_none, hc2, hcmap]
  have hlook : lookupMap
      { (create g o d).1 with vertexMap := mapInsert g.vertexMap o g.edges.length }.vertexMap
      d = none := by
    simp only []
    rw [lookup_mapInsert_ne _ _ _ _ hod]
    exact had
  have hcN2 : ({ (create g o d).1 with
      vertexMap := mapInsert g.vertexMap o g.edges.length } : EdgeGraph).edges[g.edges.length]? =
      some { orig := o, sym := some (g.edges.length + 1), next := some g.edges.length } := hcN
  have hsym2 : symAt
      { (create g o d).1 with vertexMap := mapInsert g.vertexMap o g.edges.length }
      g.edges.length = g.edges.length + 1 := by
    rw [symAt_of_get _ _ _ hcN2]
    rfl
  rw [insertDest_none _ _ _ hlook, hsym2]
  refine ⟨rfl, rfl, by simp only []; rw [hclen], ?_, ?_, ?_⟩
  · intro j hjN hjN1
    simp only []
    rw [hcold j hjN hjN1]
  · simp only []
    exact hcN
  · simp only []
    exact hcN1

theorem origAt_congr (g g2 : EdgeGraph) (j : Nat) (h : g2.edges[j]? = g.edges[j]?) :
    origAt g2 j = origAt g j := by
  simp [origAt, heAt, h]

theorem symAt_congr (g g2 : EdgeGraph) (j : Nat) (h : g2.edges[j]? = g.edges[j]?) :
    symAt g2 j = symAt g j := by
  simp [symAt, heAt, h]

theorem nextAt_congr (g g2 : EdgeGraph) (j : Nat) (h : g2.edges[j]? = g.edges[j]?) :
    nextAt g2 j = nextAt g j := by
  simp [nextAt, heAt, h]

theorem degree_shift (g g2 : EdgeGraph) (o d : Coordinate)
    (hlen : g2.edges.length = g.edges.length + 2)
    (horig : ∀ j, j < g.edges.length → origAt g2 j = origAt g j)
    (hN : origAt g2 g.edges.length = o) (hN1 : origAt g2 (g.edges.length + 1) = d)
    (v : Coordinate) :
    degree g2 v = degree g v + ((if o = v then 1 else 0) + (if d = v then 1 else 0)) := by
  have hsplit : List.range (g.edges.length + 2) =
      List.range g.edges.length ++ [g.edges.length, g.edges.length + 1] := by
    rw [show g.edges.length + 2 = (g.edges.length + 1) + 1 from rfl, List.range_succ,
      List.range_succ]
    simp
  unfold degree
  rw [hlen, hsplit, List.filter_append, List.length_append]
  have h1 : (List.range g.edges.length).filter (fun j => decide (origAt g2 j = v)) =
      (List.range g.edges.length).filter (fun j => decide (origAt g j = v)) := by
    apply List.filter_congr
    intro x hx
    rw [horig x (List.mem_range.1 hx)]
  rw [h1]
  have h2 : (([g.edges.length, g.edges.length + 1] : List Nat).filter
      (fun j => decide (origAt g2 j = v))).length =
      (if o = v then 1 else 0) + (if d = v then 1 else 0) := by
    by_cases ho : o = v <;> by_cases hd2 : d = v <;>
      simp [List.filter, hN, hN1, ho, hd2]
  rw [h2]

theorem class_shift (g g2 : EdgeGraph) (o d : Coordinate)
    (hlen : g2.edges.length = g.edges.length + 2)
    (horig : ∀ j, j < g.edges.length → origAt g2 j = origAt g j)
    (hN : origAt g2 g.edges.length = o) (hN1 : origAt g2 (g.edges.length + 1) = d)
    (v : Coordinate) (x : Nat) :
    (x < g2.edges.length ∧ origAt g2 x = v) ↔
      ((x = g.edges.length ∧ o = v) ∨ (x = g.edges.length + 1 ∧ d = v)
        ∨ (x < g.edges.length ∧ origAt g x = v)) := by
  constructor
  · rintro ⟨hb, hv⟩
    rw [hlen] at hb
    rcases Nat.lt_or_ge x g.edges.length with h | h
    · right; right
      exact ⟨h, by rw [← horig x h]; exact hv⟩
    · rcases Nat.eq_or_lt_of_le h with h2 | h2
      · left
        exact ⟨h2.symm, by rw [← hN, h2]; exact hv⟩
      · right; left
        have hx : x = g.edges.length + 1 := by omega
        exact ⟨hx, by rw [← hN1, ← hx]; exact hv⟩
  · rintro (⟨rfl, hv⟩ | ⟨rfl, hv⟩ | ⟨hb, hv⟩)
    · exact ⟨by omega, by rw [hN]; exact hv⟩
    · exact ⟨by omega, by rw [hN1]; exact hv⟩
    · exact ⟨by omega, by rw [horig x hb]; exact hv⟩

theorem degree_eq_zero (g : EdgeGraph) (v : Coordinate)
    (h : ∀ j, j < g.edges.length → origAt g j ≠ v) : degree g v = 0 := by
  unfold degree
  rw [List.length_eq_zero, List.filter_eq_nil_iff]
  intro x hx
  simpa using h x (List.mem_range.1 hx)

theorem RingAt_singleton (g2 : EdgeGraph) (v : Coordinate) (e : Nat)
    (hdeg : degree g2 v = 1) (hnext : nextAt g2 e = e) (hbound : e < g2.edges.length)
    (horig : origAt g2 e = v)
    (huniq : ∀ j, j < g2.edges.length → origAt g2 j = v → j = e) : RingAt g2 v e := by
  have htraj : traj (nextAt g2) e 1 = [e] := by
    simp [traj]
  refine ⟨?_, ?_, ?_⟩
  · rw [hdeg, Function.iterate_one, hnext]
  · rw [hdeg, htraj]; simp
  · intro j
    rw [hdeg, htraj]
    simp only [List.mem_singleton]
    constructor
    · rintro rfl; exact ⟨hbound, horig⟩
    · rintro ⟨hb, ho⟩; exact huniq j hb ho

theorem WF_insertPair_ss (g : EdgeGraph) (o d : Coordinate) (a ad : Nat)
    (hWF : WF g) (hod : o ≠ d)
    (ha : lookupMap g.vertexMap o = some a)
    (had : lookupMap g.vertexMap d = some ad)
    (hfind : findHE g a d = none) :
    WF (insertPair g o d (some a)).1 := by
  have hamem : (o, a) ∈ g.vertexMap := lookupMap_mem _ _ _ ha
  have hadmem : (d, ad) ∈ g.vertexMap := lookupMap_mem _ _ _ had
  obtain ⟨haN0, horiga0⟩ := hWF.mapEntry (o, a) hamem
  obtain ⟨hadN0, horigad0⟩ := hWF.mapEntry (d, ad) hadmem
  have haN : a < g.edges.length := haN0
  have horiga : origAt g a = o := horiga0
  have hadN : ad < g.edges.length := hadN0
  have horigad : origAt g ad = d := horigad0
  clear haN0 horiga0 hadN0 horigad0
  have hne : a ≠ ad := fun hh => hod (by rw [← horiga, hh, horigad])
  obtain ⟨hip2, himap, hilen, hiold, hia, hiad, hiN, hiN1⟩ :=
    insertPair_ss g o d a ad had haN hadN hne
  set N := g.edges.length with hNdef
  set gn := (insertPair g o d (some a)).1 with hgn
  have hheN : heAt gn N = { orig := o, sym := some (N + 1), next := (heAt g a).next } :=
    heAt_of_get _ _ _ hiN
  have hheN1 : heAt gn (N + 1) = { orig := d, sym := some N, next := (heAt g ad).next } :=
    heAt_of_get _ _ _ hiN1
  have hhea : heAt gn a = { heAt g a with next := some N } := heAt_of_get _ _ _ hia
  have hhead : heAt gn ad = { heAt g ad with next := some (N + 1) } := heAt_of_get _ _ _ hiad
  have horig_old : ∀ j, j < N → origAt gn j = origAt g j := by
    intro j hj
    by_cases hja : j = a
    · subst hja; simp [origAt, hhea]
    · by_cases hjad : j = ad
      · subst hjad; simp [origAt, hhead]
      · exact origAt_congr _ _ _ (hiold j hja hjad (by omega) (by omega))
  have hsymf : ∀ j, j < N → (heAt gn j).sym = (heAt g j).sym := by
    intro j hj
    by_cases hja : j = a
    · subst hja; simp [hhea]
    · by_cases hjad : j = ad
      · subst hjad; simp [hhead]
      · rw [heAt_congr _ _ _ (hiold j hja hjad (by omega) (by omega))]
  have hsymAt_old : ∀ j, j < N → symAt gn j = symAt g j := by
    intro j hj
    simp only [symAt]
    rw [hsymf j hj]
  have hdest_old : ∀ j, j < N → destAt gn j = destAt g j := by
    intro j hj
    obtain ⟨s, hs1, hs2, hs3, hs4⟩ := hWF.symSome j (by omega)
    have hsj : symAt g j = s := by simp [symAt, hs1]
    simp only [destAt]
    rw [hsymAt_old j hj, hsj, horig_old s hs2]
  obtain ⟨ka, hka1, hka2, hka3⟩ := hWF.nextSome a haN
  obtain ⟨kad, hkad1, hkad2, hkad3⟩ := hWF.nextSome ad hadN
  have hnextN : nextAt gn N = nextAt g a := by simp [nextAt, hheN, hka1]
  have hnextN1 : nextAt gn (N + 1) = nextAt g ad := by simp [nextAt, hheN1, hkad1]
  have hnexta : nextAt gn a = N := by simp [nextAt, hhea]
  have hnextad : nextAt gn ad = N + 1 := by simp [nextAt, hhead]
  have hnext_old : ∀ j, j < N → j ≠ a → j ≠ ad → nextAt gn j = nextAt g j := by
    intro j hj hja hjad
    exact nextAt_congr _ _ _ (hiold j hja hjad (by omega) (by omega))
  have horigN : origAt gn N = o := by simp [origAt, hheN]
  have horigN1 : origAt gn (N + 1) = d := by simp [origAt, hheN1]
  have hsymN : symAt gn N = N + 1 := by simp [symAt, hheN]
  have hsymN1 : symAt gn (N + 1) = N := by simp [symAt, hheN1]
  have hdestN : destAt gn N = d := by simp only [destAt]; rw [hsymN, horigN1]
  have hdestN1 : destAt gn (N + 1) = o := by simp only [destAt]; rw [hsymN1, horigN]
  have hring_oa : RingAt g o a := hWF.ring (o, a) hamem
  have hring_dad : RingAt g d ad := hWF.ring (d, ad) hadmem
  have hfc := (findHE_correct g o a d hring_oa haN horiga).2 hfind
  have hno_do : ∀ i, i < N → origAt g i = d → destAt g i ≠ o := by
    intro i hi ho1 hd1
    obtain ⟨s, hs1, hs2, hs3, hs4⟩ := hWF.symSome i (by omega)
    have hsi : symAt g i = s := by simp [symAt, hs1]
    have h6 : destAt g i = origAt g s := by simp only [destAt]; rw [hsi]
    have h5 : origAt g s = o := by rw [← h6]; exact hd1
    have hsym_s : symAt g s = i := by simp [symAt, hs3]
    have hdest_s : destAt g s = d := by simp only [destAt]; rw [hsym_s]; exact ho1
    exact hfc s hs2 h5 hdest_s
  have hdo : d ≠ o := fun hh => hod hh.symm
  refine ⟨?_, ?_, ?_, ?_, ?_, ?_, ?_⟩
  · -- symSome
    intro j hj
    rw [hilen] at hj
    rcases Nat.lt_or_ge j N with h | h
    · obtain ⟨s, hs1, hs2, hs3, hs4⟩ := hWF.symSome j (by omega)
      refine ⟨s, ?_, by rw [hilen]; omega, ?_, ?_⟩
      · rw [hsymf j h]; exact hs1
      · rw [hsymf s hs2]; exact hs3
      · rw [horig_old s hs2, horig_old j h]; exact hs4
    · rcases Nat.eq_or_lt_of_le h with h2 | h2
      · refine ⟨N + 1, ?_, by rw [hilen]; omega, ?_, ?_⟩
        · rw [← h2, hheN]
        · rw [hheN1, ← h2]
        · rw [horigN1, ← h2, horigN]; exact hdo
      · have hj1 : j = N + 1 := by omega
        refine ⟨N, ?_, by rw [hilen]; omega, ?_, ?_⟩
        · rw [hj1, hheN1]
        · rw [hheN, hj1]
        · rw [horigN, hj1, horigN1]; exact hod
  · -- nextSome
    intro j hj
    rw [hilen] at hj
    rcases Nat.lt_or_ge j N with h | h
    · by_cases hja : j = a
      · subst hja
        refine ⟨N, by rw [hhea], by rw [hilen]; omega, ?_⟩
        rw [horigN, horig_old j h]
        exact horiga.symm
      · by_cases hjad : j = ad
        · subst hjad
          refine ⟨N + 1, by rw [hhead], by rw [hilen]; omega, ?_⟩
          rw [horigN1, horig_old j h]
          exact horigad.symm
        · obtain ⟨k, hk1, hk2, hk3⟩ := hWF.nextSome j (by omega)
          have hee := heAt_congr _ _ _ (hiold j hja hjad (by omega) (by omega))
          refine ⟨k, by rw [hee]; exact hk1, by rw [hilen]; omega, ?_⟩
          rw [horig_old k hk2, horig_old j h]
          exact hk3
    · rcases Nat.eq_or_lt_of_le h with h2 | h2
      · refine ⟨ka, by rw [← h2, hheN]; exact hka1, by rw [hilen]; omega, ?_⟩
        rw [horig_old ka hka2, ← h2, horigN, hka3]
        exact horiga
      · have hj1 : j = N + 1 := by omega
        refine ⟨kad, by rw [hj1, hheN1]; exact hkad1, by rw [hilen]; omega, ?_⟩
        rw [horig_old kad hkad2, hj1, horigN1, hkad3]
        exact horigad
  · -- mapEntry
    intro p hp
    rw [himap] at hp
    obtain ⟨h1, h2⟩ := hWF.mapEntry p hp
    exact ⟨by rw [hilen]; omega, by rw [horig_old p.2 h1]; exact h2⟩
  · -- mapNodupKeys
    rw [himap]
    exact hWF.mapNodupKeys
  · -- mapComplete
    intro j hj
    rw [hilen] at hj
    rw [himap]
    rcases Nat.lt_or_ge j N with h | h
    · rw [horig_old j h]
      exact hWF.mapComplete j (by omega)
    · rcases Nat.eq_or_lt_of_le h with h2 | h2
      · rw [← h2, horigN]
        exact ⟨a, ha⟩
      · have hj1 : j = N + 1 := by omega
        rw [hj1, horigN1]
        exact ⟨ad, had⟩
  · -- ring
    intro p hp
    rw [himap] at hp
    have hplook : lookupMap g.vertexMap p.1 = some p.2 :=
      mem_lookupMap _ _ _ hWF.mapNodupKeys (by simpa using hp)
    by_cases hpo : p.1 = o
    · have hpa : p.2 = a := by
        rw [hpo, ha] at hplook
        exact (Option.some_inj.1 hplook).symm
      rw [show p = (p.1, p.2) from rfl] at hp ⊢
      rw [hpo, hpa]
      apply RingAt_spliced g gn o a N hring_oa haN horiga
      · rw [degree_shift g gn o d hilen horig_old horigN horigN1 o]
        simp [hdo]
      · exact hnexta
      · exact hnextN
      · intro j hj hjo hja
        have hjad : j ≠ ad := by
          intro hh
          rw [hh, horigad] at hjo
          exact hod hjo.symm
        exact hnext_old j hj hja hjad
      · rintro ⟨hh, _⟩
        exact absurd hh (lt_irrefl N)
      · intro x
        rw [class_shift g gn o d hilen horig_old horigN horigN1 o x]
        constructor
        · rintro (⟨rfl, _⟩ | ⟨rfl, hvd⟩ | h)
          · exact Or.inl rfl
          · exact absurd hvd hdo
          · exact Or.inr h
        · rintro (rfl | h)
          · exact Or.inl ⟨rfl, rfl⟩
          · exact Or.inr (Or.inr h)
    · by_cases hpd : p.1 = d
      · have hpad : p.2 = ad := by
          rw [hpd, had] at hplook
          exact (Option.some_inj.1 hplook).symm
        rw [show p = (p.1, p.2) from rfl] at hp ⊢
        rw [hpd, hpad]
        apply RingAt_spliced g gn d ad (N + 1) hring_dad hadN horigad
        · rw [degree_shift g gn o d hilen horig_old horigN horigN1 d]
          simp [hod]
        · exact hnextad
        · exact hnextN1
        · intro j hj hjd hjad
          have hja : j ≠ a := by
            intro hh
            rw [hh, horiga] at hjd
            exact hod hjd
          exact hnext_old j hj hja hjad
        · rintro ⟨hh, _⟩
          omega
        · intro x
          rw [class_shift g gn o d hilen horig_old horigN horigN1 d x]
          constructor
          · rintro (⟨rfl, hvo⟩ | ⟨rfl, _⟩ | h)
            · exact absurd hvo hod
            · exact Or.inl rfl
            · exact Or.inr h
          · rintro (rfl | h)
            · exact Or.inr (Or.inl ⟨rfl, rfl⟩)
            · exact Or.inr (Or.inr h)
      · apply RingAt_untouched g gn p.1 p.2 (hWF.ring p hp)
        · rw [degree_shift g gn o d hilen horig_old horigN horigN1 p.1]
          have h1 : o ≠ p.1 := fun hh => hpo hh.symm
          have h2 : d ≠ p.1 := fun hh => hpd hh.symm
          simp [h1, h2]
        · intro j hj hjv
          have hja : j ≠ a := by
            intro hh
            rw [hh, horiga] at hjv
            exact hpo hjv.symm
          have hjad : j ≠ ad := by
            intro hh
            rw [hh, horigad] at hjv
            exact hpd hjv.symm
          exact hnext_old j hj hja hjad
        · intro x
          rw [class_shift g gn o d hilen horig_old horigN horigN1 p.1 x]
          constructor
          · rintro (⟨rfl, hvo⟩ | ⟨rfl, hvd⟩ | h)
            · exact absurd hvo (fun hh => hpo hh.symm)
            · exact absurd hvd (fun hh => hpd hh.symm)
            · exact h
          · intro h
            exact Or.inr (Or.inr h)
  · -- noDupEdge
    intro i hi j hj ho1 hd1
    rw [hilen] at hi hj
    rcases Nat.lt_or_ge i N with hiN2 | hiN2 <;> rcases Nat.lt_or_ge j N with hjN2 | hjN2
    · rw [horig_old i hiN2, horig_old j hjN2] at ho1
      rw [hdest_old i hiN2, hdest_old j hjN2] at hd1
      exact hWF.noDupEdge i (by omega) j (by omega) ho1 hd1
    · rcases Nat.eq_or_lt_of_le hjN2 with h2 | h2
      · exfalso
        rw [horig_old i hiN2, ← h2, horigN] at ho1
        rw [hdest_old i hiN2, ← h2, hdestN] at hd1
        exact hfc i (by omega) ho1 hd1
      · exfalso
        have hj1 : j = N + 1 := by omega
        rw [horig_old i hiN2, hj1, horigN1] at ho1
        rw [hdest_old i hiN2, hj1, hdestN1] at hd1
        exact hno_do i (by omega) ho1 hd1
    · rcases Nat.eq_or_lt_of_le hiN2 with h2 | h2
      · exfalso
        rw [← h2, horigN, horig_old j hjN2] at ho1
        rw [← h2, hdestN, hdest_old j hjN2] at hd1
        exact hfc j (by omega) ho1.symm hd1.symm
      · exfalso
        have hi1 : i = N + 1 := by omega
        rw [hi1, horigN1, horig_old j hjN2] at ho1
        rw [hi1, hdestN1, hdest_old j hjN2] at hd1
        exact hno_do j (by omega) ho1.symm hd1.symm
    · rcases Nat.eq_or_lt_of_le hiN2 with h2 | h2 <;>
        rcases Nat.eq_or_lt_of_le hjN2 with h3 | h3
      · omega
      · exfalso
        have hj1 : j = N + 1 := by omega
        rw [← h2, horigN, hj1, horigN1] at ho1
        exact hod ho1
      · exfalso
        have hi1 : i = N + 1 := by omega
        rw [hi1, horigN1, ← h3, horigN] at ho1
        exact hdo ho1
      · omega

theorem WF_insertPair_sn (g : EdgeGraph) (o d : Coordinate) (a : Nat)
    (hWF : WF g) (hod : o ≠ d)
    (ha : lookupMap g.vertexMap o = some a)
    (had : lookupMap g.vertexMap d = none)
    (hfind : findHE g a d = none) :
    WF (insertPair g o d (some a)).1 := by
  have hamem : (o, a) ∈ g.vertexMap := lookupMap_mem _ _ _ ha
  obtain ⟨haN0, horiga0⟩ := hWF.mapEntry (o, a) hamem
  have haN : a < g.edges.length := haN0
  have horiga : origAt g a = o := horiga0
  clear haN0 horiga0
  have hclassd : ∀ j, j < g.edges.length → origAt g j ≠ d := by
    intro j hj hh
    obtain ⟨r, hr⟩ := hWF.mapComplete j hj
    rw [hh, had] at hr
    exact Option.noConfusion hr
  obtain ⟨hip2, himap, hilen, hiold, hia, hiN, hiN1⟩ := insertPair_sn g o d a had haN
  set N := g.edges.length with hNdef
  set gn := (insertPair g o d (some a)).1 with hgn
  have hheN : heAt gn N = { orig := o, sym := some (N + 1), next := (heAt g a).next } :=
    heAt_of_get _ _ _ hiN
  have hheN1 : heAt gn (N + 1) =
      { orig := d, sym := some N, next := some (N + 1) } := heAt_of_get _ _ _ hiN1
  have hhea : heAt gn a = { heAt g a with next := some N } := heAt_of_get _ _ _ hia
  have horig_old : ∀ j, j < N → origAt gn j = origAt g j := by
    intro j hj
    by_cases hja : j = a
    · subst hja; simp [origAt, hhea]
    · exact origAt_congr _ _ _ (hiold j hja (by omega) (by omega))
  have hsymf : ∀ j, j < N → (heAt gn j).sym = (heAt g j).sym := by
    intro j hj
    by_cases hja : j = a
    · subst hja; simp [hhea]
    · rw [heAt_congr _ _ _ (hiold j hja (by omega) (by omega))]
  have hsymAt_old : ∀ j, j < N → symAt gn j = symAt g j := by
    intro j hj
    simp only [symAt]
    rw [hsymf j hj]
  have hdest_old : ∀ j, j < N → destAt gn j = destAt g j := by
    intro j hj
    obtain ⟨s, hs1, hs2, hs3, hs4⟩ := hWF.symSome j (by omega)
    have hsj : symAt g j = s := by simp [symAt, hs1]
    simp only [destAt]
    rw [hsymAt_old j hj, hsj, horig_old s hs2]
  obtain ⟨ka, hka1, hka2, hka3⟩ := hWF.nextSome a haN
  have hnextN : nextAt gn N = nextAt g a := by simp [nextAt, hheN, hka1]
  have hnextN1 : nextAt gn (N + 1) = N + 1 := by simp [nextAt, hheN1]
  have hnexta : nextAt gn a = N := by simp [nextAt, hhea]
  have hnext_old : ∀ j, j < N → j ≠ a → nextAt gn j = nextAt g j := by
    intro j hj hja
    exact nextAt_congr _ _ _ (hiold j hja (by omega) (by omega))
  have horigN : origAt gn N = o := by simp [origAt, hheN]
  have horigN1 : origAt gn (N + 1) = d := by simp [origAt, hheN1]
  have hsymN : symAt gn N = N + 1 := by simp [symAt, hheN]
  have hsymN1 : symAt gn (N + 1) = N := by simp [symAt, hheN1]
  have hdestN : destAt gn N = d := by simp only [destAt]; rw [hsymN, horigN1]
  have hdestN1 : destAt gn (N + 1) = o := by simp only [destAt]; rw [hsymN1, horigN]
  have hring_oa : RingAt g o a := hWF.ring (o, a) hamem
  have hfc := (findHE_correct g o a d hring_oa haN horiga).2 hfind
  have hdo : d ≠ o := fun hh => hod hh.symm
  have hdeg0 : degree g d = 0 := degree_eq_zero g d hclassd
  refine ⟨?_, ?_, ?_, ?_, ?_, ?_, ?_⟩
  · -- symSome
    intro j hj
    rw [hilen] at hj
    rcases Nat.lt_or_ge j N with h | h
    · obtain ⟨s, hs1, hs2, hs3, hs4⟩ := hWF.symSome j (by omega)
      refine ⟨s, ?_, by rw [hilen]; omega, ?_, ?_⟩
      · rw [hsymf j h]; exact hs1
      · rw [hsymf s hs2]; exact hs3
      · rw [horig_old s hs2, horig_old j h]; exact hs4
    · rcases Nat.eq_or_lt_of_le h with h2 | h2
      · refine ⟨N + 1, ?_, by rw [hilen]; omega, ?_, ?_⟩
        · rw [← h2, hheN]
        · rw [hheN1, ← h2]
        · rw [horigN1, ← h2, horigN]; exact hdo
      · have hj1 : j = N + 1 := by omega
        refine ⟨N, ?_, by rw [hilen]; omega, ?_, ?_⟩
        · rw [hj1, hheN1]
        · rw [hheN, hj1]
        · rw [horigN, hj1, horigN1]; exact hod
  · -- nextSome
    intro j hj
    rw [hilen] at hj
    rcases Nat.lt_or_ge j N with h | h
    · by_cases hja : j = a
      · subst hja
        refine ⟨N, by rw [hhea], by rw [hilen]; omega, ?_⟩
        rw [horigN, horig_old j h]
        exact horiga.symm
      · obtain ⟨k, hk1, hk2, hk3⟩ := hWF.nextSome j (by omega)
        have hee := heAt_congr _ _ _ (hiold j hja (by omega) (by omega))
        refine ⟨k, by rw [hee]; exact hk1, by rw [hilen]; omega, ?_⟩
        rw [horig_old k hk2, horig_old j h]
        exact hk3
    · rcases Nat.eq_or_lt_of_le h with h2 | h2
      · refine ⟨ka, by rw [← h2, hheN]; exact hka1, by rw [hilen]; omega, ?_⟩
        rw [horig_old ka hka2, ← h2, horigN, hka3]
        exact horiga
      · have hj1 : j = N + 1 := by omega
        refine ⟨N + 1, by rw [hj1, hheN1], by rw [hilen]; omega, by rw [hj1]⟩
  · -- mapEntry
    intro p hp
    rw [himap] at hp
    rcases mem_mapInsert _ _ _ _ hp with h1 | h1
    · rw [h1]
      exact ⟨by rw [hilen]; omega, horigN1⟩
    · obtain ⟨h2, h3⟩ := hWF.mapEntry p h1
      exact ⟨by rw [hilen]; omega, by rw [horig_old p.2 h2]; exact h3⟩
  · -- mapNodupKeys
    rw [himap]
    exact mapInsert_keysNodup _ _ _ hWF.mapNodupKeys
  · -- mapComplete
    intro j hj
    rw [hilen] at hj
    rw [himap]
    rcases Nat.lt_or_ge j N with h | h
    · rw [horig_old j h, lookup_mapInsert_ne _ _ _ _ (hclassd j h)]
      exact hWF.mapComplete j (by omega)
    · rcases Nat.eq_or_lt_of_le h with h2 | h2
      · rw [← h2, horigN, lookup_mapInsert_ne _ _ _ _ hod]
        exact ⟨a, ha⟩
      · have hj1 : j = N + 1 := by omega
        rw [hj1, horigN1]
        exact ⟨N + 1, lookup_mapInsert_self _ _ _⟩
  · -- ring
    intro p hp
    rw [himap] at hp
    rcases mem_mapInsert _ _ _ _ hp with h1 | h1
    · rw [h1]
      apply RingAt_singleton gn d (N + 1)
      · rw [degree_shift g gn o d hilen horig_old horigN horigN1 d, hdeg0]
        simp [hod]
      · exact hnextN1
      · rw [hilen]; omega
      · exact horigN1
      · intro j hj hjd
        rw [hilen] at hj
        rcases Nat.lt_or_ge j N with h | h
        · exact absurd (by rw [← horig_old j h]; exact hjd) (hclassd j h)
        · rcases Nat.eq_or_lt_of_le h with h2 | h2
          · exfalso
            rw [← h2, horigN] at hjd
            exact hod hjd
          · omega
    · have hp1d : p.1 ≠ d := by
        intro hh
        exact lookup_none_not_mem _ _ had p.2 (by rw [← hh]; simpa using h1)
      have hplook : lookupMap g.vertexMap p.1 = some p.2 :=
        mem_lookupMap _ _ _ hWF.mapNodupKeys (by simpa using h1)
      by_cases hpo : p.1 = o
      · have hpa : p.2 = a := by
          rw [hpo, ha] at hplook
          exact (Option.some_inj.1 hplook).symm
        rw [show p = (p.1, p.2) from rfl]
        rw [hpo, hpa]
        apply RingAt_spliced g gn o a N hring_oa haN horiga
        · rw [degree_shift g gn o d hilen horig_old horigN horigN1 o]
          simp [hdo]
        · exact hnexta
        · exact hnextN
        · intro j hj hjo hja
          exact hnext_old j hj hja
        · rintro ⟨hh, _⟩
          exact absurd hh (lt_irrefl N)
        · intro x
          rw [class_shift g gn o d hilen horig_old horigN horigN1 o x]
          constructor
          · rintro (⟨rfl, _⟩ | ⟨rfl, hvd⟩ | h)
            · exact Or.inl rfl
            · exact absurd hvd hdo
            · exact Or.inr h
          · rintro (rfl | h)
            · exact Or.inl ⟨rfl, rfl⟩
            · exact Or.inr (Or.inr h)
      · apply RingAt_untouched g gn p.1 p.2 (hWF.ring p h1)
        · rw [degree_shift g gn o d hilen horig_old horigN horigN1 p.1]
          have h2 : o ≠ p.1 := fun hh => hpo hh.symm
          have h3 : d ≠ p.1 := fun hh => hp1d hh.symm
          simp [h2, h3]
        · intro j hj hjv
          have hja : j ≠ a := by
            intro hh
            rw [hh, horiga] at hjv
            exact hpo hjv.symm
          exact hnext_old j hj hja
        · intro x
          rw [class_shift g gn o d hilen horig_old horigN horigN1 p.1 x]
          constructor
          · rintro (⟨rfl, hvo⟩ | ⟨rfl, hvd⟩ | h)
            · exact absurd hvo (fun hh => hpo hh.symm)
            · exact absurd hvd (fun hh => hp1d hh.symm)
            · exact h
          · intro h
            exact Or.inr (Or.inr h)
  · -- noDupEdge
    intro i hi j hj ho1 hd1
    rw [hilen] at hi hj
    rcases Nat.lt_or_ge i N with hiN2 | hiN2 <;> rcases Nat.lt_or_ge j N with hjN2 | hjN2
    · rw [horig_old i hiN2, horig_old j hjN2] at ho1
      rw [hdest_old i hiN2, hdest_old j hjN2] at hd1
      exact hWF.noDupEdge i (by omega) j (by omega) ho1 hd1
    · rcases Nat.eq_or_lt_of_le hjN2 with h2 | h2
      · exfalso
        rw [horig_old i hiN2, ← h2, horigN] at ho1
        rw [hdest_old i hiN2, ← h2, hdestN] at hd1
        exact hfc i (by omega) ho1 hd1
      · exfalso
        have hj1 : j = N + 1 := by omega
        rw [horig_old i hiN2, hj1, horigN1] at ho1
        exact hclassd i (by omega) ho1
    · rcases Nat.eq_or_lt_of_le hiN2 with h2 | h2
      · exfalso
        rw [← h2, horigN, horig_old j hjN2] at ho1
        rw [← h2, hdestN, hdest_old j hjN2] at hd1
        exact hfc j (by omega) ho1.symm hd1.symm
      · exfalso
        have hi1 : i = N + 1 := by omega
        rw [hi1, horigN1, horig_old j hjN2] at ho1
        exact hclassd j (by omega) ho1.symm
    · rcases Nat.eq_or_lt_of_le hiN2 with h2 | h2 <;>
        rcases Nat.eq_or_lt_of_le hjN2 with h3 | h3
      · omega
      · exfalso
        have hj1 : j = N + 1 := by omega
        rw [← h2, horigN, hj1, horigN1] at ho1
        exact hod ho1
      · exfalso
        have hi1 : i = N + 1 := by omega
        rw [hi1, horigN1, ← h3, horigN] at ho1
        exact hdo ho1
      · omega

theorem WF_insertPair_ns (g : EdgeGraph) (o d : Coordinate) (ad : Nat)
    (hWF : WF g) (hod : o ≠ d)
    (ha : lookupMap g.vertexMap o = none)
    (had : lookupMap g.vertexMap d = some ad) :
    WF (insertPair g o d none).1 := by
  have hadmem : (d, ad) ∈ g.vertexMap := lookupMap_mem _ _ _ had
  obtain ⟨hadN0, horigad0⟩ := hWF.mapEntry (d, ad) hadmem
  have hadN : ad < g.edges.length := hadN0
  have horigad : origAt g ad = d := horigad0
  clear hadN0 horigad0
  have hdo : d ≠ o := fun hh => hod hh.symm
  have hclasso : ∀ j, j < g.edges.length → origAt g j ≠ o := by
    intro j hj hh
    obtain ⟨r, hr⟩ := hWF.mapComplete j hj
    rw [hh, ha] at hr
    exact Option.noConfusion hr
  obtain ⟨hip2, himap, hilen, hiold, hiad, hiN, hiN1⟩ := insertPair_ns g o d ad had hadN hdo
  set N := g.edges.length with hNdef
  set gn := (insertPair g o d none).1 with hgn
  have hheN : heAt gn N = { orig := o, sym := some (N + 1), next := some N } :=
    heAt_of_get _ _ _ hiN
  have hheN1 : heAt gn (N + 1) =
      { orig := d, sym := some N, next := (heAt g ad).next } := heAt_of_get _ _ _ hiN1
  have hhead : heAt gn ad = { heAt g ad with next := some (N + 1) } := heAt_of_get _ _ _ hiad
  have horig_old : ∀ j, j < N → origAt gn j = origAt g j := by
    intro j hj
    by_cases hjad : j = ad
    · subst hjad; simp [origAt, hhead]
    · exact origAt_congr _ _ _ (hiold j hjad (by omega) (by omega))
  have hsymf : ∀ j, j < N → (heAt gn j).sym = (heAt g j).sym := by
    intro j hj
    by_cases hjad : j = ad
    · subst hjad; simp [hhead]
    · rw [heAt_congr _ _ _ (hiold j hjad (by omega) (by omega))]
  have hsymAt_old : ∀ j, j < N → symAt gn j = symAt g j := by
    intro j hj
    simp only [symAt]
    rw [hsymf j hj]
  have hdest_old : ∀ j, j < N → destAt gn j = destAt g j := by
    intro j hj
    obtain ⟨s, hs1, hs2, hs3, hs4⟩ := hWF.symSome j (by omega)
    have hsj : symAt g j = s := by simp [symAt, hs1]
    simp only [destAt]
    rw [hsymAt_old j hj, hsj, horig_old s hs2]
  obtain ⟨kad, hkad1, hkad2, hkad3⟩ := hWF.nextSome ad hadN
  have hnextN : nextAt gn N = N := by simp [nextAt, hheN]
  have hnextN1 : nextAt gn (N + 1) = nextAt g ad := by simp [nextAt, hheN1, hkad1]
  have hnextad : nextAt gn ad = N + 1 := by simp [nextAt, hhead]
  have hnext_old : ∀ j, j < N → j ≠ ad → nextAt gn j = nextAt g j := by
    intro j hj hjad
    exact nextAt_congr _ _ _ (hiold j hjad (by omega) (by omega))
  have horigN : origAt gn N = o := by simp [origAt, hheN]
  have horigN1 : origAt gn (N + 1) = d := by simp [origAt, hheN1]
  have hsymN : symAt gn N = N + 1 := by simp [symAt, hheN]
  have hsymN1 : symAt gn (N + 1) = N := by simp [symAt, hheN1]
  have hdestN : destAt gn N = d := by simp only [destAt]; rw [hsymN, horigN1]
  have hdestN1 : destAt gn (N + 1) = o := by simp only [destAt]; rw [hsymN1, horigN]
  have hring_dad : RingAt g d ad := hWF.ring (d, ad) hadmem
  have hdeg0 : degree g o = 0 := degree_eq_zero g o hclasso
  have hno_do : ∀ i, i < N → origAt g i = d → destAt g i ≠ o := by
    intro i hi ho1 hd1
    obtain ⟨s, hs1, hs2, hs3, hs4⟩ := hWF.symSome i (by omega)
    have hsi : symAt g i = s := by simp [symAt, hs1]
    have h6 : destAt g i = origAt g s := by simp only [destAt]; rw [hsi]
    have h5 : origAt g s = o := by rw [← h6]; exact hd1
    exact hclasso s hs2 h5
  refine ⟨?_, ?_, ?_, ?_, ?_, ?_, ?_⟩
  · -- symSome
    intro j hj
    rw [hilen] at hj
    rcases Nat.lt_or_ge j N with h | h
    · obtain ⟨s, hs1, hs2, hs3, hs4⟩ := hWF.symSome j (by omega)
      refine ⟨s, ?_, by rw [hilen]; omega, ?_, ?_⟩
      · rw [hsymf j h]; exact hs1
      · rw [hsymf s hs2]; exact hs3
      · rw [horig_old s hs2, horig_old j h]; exact hs4
    · rcases Nat.eq_or_lt_of_le h with h2 | h2
      · refine ⟨N + 1, ?_, by rw [hilen]; omega, ?_, ?_⟩
        · rw [← h2, hheN]
        · rw [hheN1, ← h2]
        · rw [horigN1, ← h2, horigN]; exact hdo
      · have hj1 : j = N + 1 := by omega
        refine ⟨N, ?_, by rw [hilen]; omega, ?_, ?_⟩
        · rw [hj1, hheN1]
        · rw [hheN, hj1]
        · rw [horigN, hj1, horigN1]; exact hod
  · -- nextSome
    intro j hj
    rw [hilen] at hj
    rcases Nat.lt_or_ge j N with h | h
    · by_cases hjad : j = ad
      · subst hjad
        refine ⟨N + 1, by rw [hhead], by rw [hilen]; omega, ?_⟩
        rw [horigN1, horig_old j h]
        exact horigad.symm
      · obtain ⟨k, hk1, hk2, hk3⟩ := hWF.nextSome j (by omega)
        have hee := heAt_congr _ _ _ (hiold j hjad (by omega) (by omega))
        refine ⟨k, by rw [hee]; exact hk1, by rw [hilen]; omega, ?_⟩
        rw [horig_old k hk2, horig_old j h]
        exact hk3
    · rcases Nat.eq_or_lt_of_le h with h2 | h2
      · refine ⟨N, by rw [← h2, hheN], by rw [hilen]; omega, by rw [← h2]⟩
      · have hj1 : j = N + 1 := by omega
        refine ⟨kad, by rw [hj1, hheN1]; exact hkad1, by rw [hilen]; omega, ?_⟩
        rw [horig_old kad hkad2, hj1, horigN1, hkad3]
        exact horigad
  · -- mapEntry
    intro p hp
    rw [himap] at hp
    rcases mem_mapInsert _ _ _ _ hp with h1 | h1
    · rw [h1]
      exact ⟨by rw [hilen]; omega, horigN⟩
    · obtain ⟨h2, h3⟩ := hWF.mapEntry p h1
      exact ⟨by rw [hilen]; omega, by rw [horig_old p.2 h2]; exact h3⟩
  · -- mapNodupKeys
    rw [himap]
    exact mapInsert_keysNodup _ _ _ hWF.mapNodupKeys
  · -- mapComplete
    intro j hj
    rw [hilen] at hj
    rw [himap]
    rcases Nat.lt_or_ge j N with h | h
    · rw [horig_old j h, lookup_mapInsert_ne _ _ _ _ (hclasso j h)]
      exact hWF.mapComplete j (by omega)
    · rcases Nat.eq_or_lt_of_le h with h2 | h2
      · rw [← h2, horigN]
        exact ⟨N, lookup_mapInsert_self _ _ _⟩
      · have hj1 : j = N + 1 := by omega
        rw [hj1, horigN1, lookup_mapInsert_ne _ _ _ _ hdo]
        exact ⟨ad, had⟩
  · -- ring
    intro p hp
    rw [himap] at hp
    rcases mem_mapInsert _ _ _ _ hp with h1 | h1
    · rw [h1]
      apply RingAt_singleton gn o N
      · rw [degree_shift g gn o d hilen horig_old horigN horigN1 o, hdeg0]
        simp [hdo]
      · exact hnextN
      · rw [hilen]; omega
      · exact horigN
      · intro j hj hjo
        rw [hilen] at hj
        rcases Nat.lt_or_ge j N with h | h
        · exact absurd (by rw [← horig_old j h]; exact hjo) (hclasso j h)
        · rcases Nat.eq_or_lt_of_le h with h2 | h2
          · omega
          · exfalso
            have hj1 : j = N + 1 := by omega
            rw [hj1, horigN1] at hjo
            exact hdo hjo
    · have hp1o : p.1 ≠ o := by
        intro hh
        exact lookup_none_not_mem _ _ ha p.2 (by rw [← hh]; simpa using h1)
      have hplook : lookupMap g.vertexMap p.1 = some p.2 :=
        mem_lookupMap _ _ _ hWF.mapNodupKeys (by simpa using h1)
      by_cases hpd : p.1 = d
      · have hpad : p.2 = ad := by
          rw [hpd, had] at hplook
          exact (Option.some_inj.1 hplook).symm
        rw [show p = (p.1, p.2) from rfl]
        rw [hpd, hpad]
        apply RingAt_spliced g gn d ad (N + 1) hring_dad hadN horigad
        · rw [degree_shift g gn o d hilen horig_old horigN horigN1 d]
          simp [hod]
        · exact hnextad
        · exact hnextN1
        · intro j hj hjd hjad
          exact hnext_old j hj hjad
        · rintro ⟨hh, _⟩
          omega
        · intro x
          rw [class_shift g gn o d hilen horig_old horigN horigN1 d x]
          constructor
          · rintro (⟨rfl, hvo⟩ | ⟨rfl, _⟩ | h)
            · exact absurd hvo hod
            · exact Or.inl rfl
            · exact Or.inr h
          · rintro (rfl | h)
            · exact Or.inr (Or.inl ⟨rfl, rfl⟩)
            · exact Or.inr (Or.inr h)
      · apply RingAt_untouched g gn p.1 p.2 (hWF.ring p h1)
        · rw [degree_shift g gn o d hilen horig_old horigN horigN1 p.1]
          have h2 : o ≠ p.1 := fun hh => hp1o hh.symm
          have h3 : d ≠ p.1 := fun hh => hpd hh.symm
          simp [h2, h3]
        · intro j hj hjv
          have hjad : j ≠ ad := by
            intro hh
            rw [hh, horigad] at hjv
            exact hpd hjv.symm
          exact hnext_old j hj hjad
        · intro x
          rw [class_shift g gn o d hilen horig_old horigN horigN1 p.1 x]
          constructor
          · rintro (⟨rfl, hvo⟩ | ⟨rfl, hvd⟩ | h)
            · exact absurd hvo (fun hh => hp1o hh.symm)
            · exact absurd hvd (fun hh => hpd hh.symm)
            · exact h
          · intro h
            exact Or.inr (Or.inr h)
  · -- noDupEdge
    intro i hi j hj ho1 hd1
    rw [hilen] at hi hj
    rcases Nat.lt_or_ge i N with hiN2 | hiN2 <;> rcases Nat.lt_or_ge j N with hjN2 | hjN2
    · rw [horig_old i hiN2, horig_old j hjN2] at ho1
      rw [hdest_old i hiN2, hdest_old j hjN2] at hd1
      exact hWF.noDupEdge i (by omega) j (by omega) ho1 hd1
    · rcases Nat.eq_or_lt_of_le hjN2 with h2 | h2
      · exfalso
        rw [horig_old i hiN2, ← h2, horigN] at ho1
        exact hclasso i (by omega) ho1
      · exfalso
        have hj1 : j = N + 1 := by omega
        rw [horig_old i hiN2, hj1, horigN1] at ho1
        rw [hdest_old i hiN2, hj1, hdestN1] at hd1
        exact hno_do i (by omega) ho1 hd1
    · rcases Nat.eq_or_lt_of_le hiN2 with h2 | h2
      · exfalso
        rw [← h2, horigN, horig_old j hjN2] at ho1
        exact hclasso j (by omega) ho1.symm
      · exfalso
        have hi1 : i = N + 1 := by omega
        rw [hi1, horigN1, horig_old j hjN2] at ho1
        rw [hi1, hdestN1, hdest_old j hjN2] at hd1
        exact hno_do j (by omega) ho1.symm hd1.symm
    · rcases Nat.eq_or_lt_of_le hiN2 with h2 | h2 <;>
        rcases Nat.eq_or_lt_of_le hjN2 with h3 | h3
      · omega
      · exfalso
        have hj1 : j = N + 1 := by omega
        rw [← h2, horigN, hj1, horigN1] at ho1
        exact hod ho1
      · exfalso
        have hi1 : i = N + 1 := by omega
        rw [hi1, horigN1, ← h3, horigN] at ho1
        exact hdo ho1
      · omega

theorem WF_insertPair_nn (g : EdgeGraph) (o d : Coordinate)
    (hWF : WF g) (hod : o ≠ d)
    (ha : lookupMap g.vertexMap o = none)
    (had : lookupMap g.vertexMap d = none) :
    WF (insertPair g o d none).1 := by
  have hdo : d ≠ o := fun hh => hod hh.symm
  have hclasso : ∀ j, j < g.edges.length → origAt g j ≠ o := by
    intro j hj hh
    obtain ⟨r, hr⟩ := hWF.mapComplete j hj
    rw [hh, ha] at hr
    exact Option.noConfusion hr
  have hclassd : ∀ j, j < g.edges.length → origAt g j ≠ d := by
    intro j hj hh
    obtain ⟨r, hr⟩ := hWF.mapComplete j hj
    rw [hh, had] at hr
    exact Option.noConfusion hr
  obtain ⟨hip2, himap, hilen, hiold, hiN, hiN1⟩ := insertPair_nn g o d had hdo
  set N := g.edges.length with hNdef
  set gn := (insertPair g o d none).1 with hgn
  have hheN : heAt gn N = { orig := o, sym := some (N + 1), next := some N } :=
    heAt_of_get _ _ _ hiN
  have hheN1 : heAt gn (N + 1) = { orig := d, sym := some N, next := some (N + 1) } :=
    heAt_of_get _ _ _ hiN1
  have horig_old : ∀ j, j < N → origAt gn j = origAt g j := by
    intro j hj
    exact origAt_congr _ _ _ (hiold j (by omega) (by omega))
  have hsymf : ∀ j, j < N → (heAt gn j).sym = (heAt g j).sym := by
    intro j hj
    rw [heAt_congr _ _ _ (hiold j (by omega) (by omega))]
  have hsymAt_old : ∀ j, j < N → symAt gn j = symAt g j := by
    intro j hj
    simp only [symAt]
    rw [hsymf j hj]
  have hdest_old : ∀ j, j < N → destAt gn j = destAt g j := by
    intro j hj
    obtain ⟨s, hs1, hs2, hs3, hs4⟩ := hWF.symSome j (by omega)
    have hsj : symAt g j = s := by simp [symAt, hs1]
    simp only [destAt]
    rw [hsymAt_old j hj, hsj, horig_old s hs2]
  have hnextN : nextAt gn N = N := by simp [nextAt, hheN]
  have hnextN1 : nextAt gn (N + 1) = N + 1 := by simp [nextAt, hheN1]
  have hnext_old : ∀ j, j < N → nextAt gn j = nextAt g j := by
    intro j hj
    exact nextAt_congr _ _ _ (hiold j (by omega) (by omega))
  have horigN : origAt gn N = o := by simp [origAt, hheN]
  have horigN1 : origAt gn (N + 1) = d := by simp [origAt, hheN1]
  have hdeg0o : degree g o = 0 := degree_eq_zero g o hclasso
  have hdeg0d : degree g d = 0 := degree_eq_zero g d hclassd
  refine ⟨?_, ?_, ?_, ?_, ?_, ?_, ?_⟩
  · -- symSome
    intro j hj
    rw [hilen] at hj
    rcases Nat.lt_or_ge j N with h | h
    · obtain ⟨s, hs1, hs2, hs3, hs4⟩ := hWF.symSome j (by omega)
      refine ⟨s, ?_, by rw [hilen]; omega, ?_, ?_⟩
      · rw [hsymf j h]; exact hs1
      · rw [hsymf s hs2]; exact hs3
      · rw [horig_old s hs2, horig_old j h]; exact hs4
    · rcases Nat.eq_or_lt_of_le h with h2 | h2
      · refine ⟨N + 1, ?_, by rw [hilen]; omega, ?_, ?_⟩
        · rw [← h2, hheN]
        · rw [hheN1, ← h2]
        · rw [horigN1, ← h2, horigN]; exact hdo
      · have hj1 : j = N + 1 := by omega
        refine ⟨N, ?_, by rw [hilen]; omega, ?_, ?_⟩
        · rw [hj1, hheN1]
        · rw [hheN, hj1]
        · rw [horigN, hj1, horigN1]; exact hod
  · -- nextSome
    intro j hj
    rw [hilen] at hj
    rcases Nat.lt_or_ge j N with h | h
    · obtain ⟨k, hk1, hk2, hk3⟩ := hWF.nextSome j (by omega)
      have hee := heAt_congr _ _ _ (hiold j (by omega) (by omega))
      refine ⟨k, by rw [hee]; exact hk1, by rw [hilen]; omega, ?_⟩
      rw [horig_old k hk2, horig_old j h]
      exact hk3
    · rcases Nat.eq_or_lt_of_le h with h2 | h2
      · refine ⟨N, by rw [← h2, hheN], by rw [hilen]; omega, by rw [← h2]⟩
      · have hj1 : j = N + 1 := by omega
        refine ⟨N + 1, by rw [hj1, hheN1], by rw [hilen]; omega, by rw [hj1]⟩
  · -- mapEntry
    intro p hp
    rw [himap] at hp
    rcases mem_mapInsert _ _ _ _ hp with h1 | h1
    · rw [h1]
      exact ⟨by rw [hilen]; omega, horigN1⟩
    · rcases mem_mapInsert _ _ _ _ h1 with h2 | h2
      · rw [h2]
        exact ⟨by rw [hilen]; omega, horigN⟩
      · obtain ⟨h3, h4⟩ := hWF.mapEntry p h2
        exact ⟨by rw [hilen]; omega, by rw [horig_old p.2 h3]; exact h4⟩
  · -- mapNodupKeys
    rw [himap]
    exact mapInsert_keysNodup _ _ _ (mapInsert_keysNodup _ _ _ hWF.mapNodupKeys)
  · -- mapComplete
    intro j hj
    rw [hilen] at hj
    rw [himap]
    rcases Nat.lt_or_ge j N with h | h
    · rw [horig_old j h, lookup_mapInsert_ne _ _ _ _ (hclassd j h),
        lookup_mapInsert_ne _ _ _ _ (hclasso j h)]
      exact hWF.mapComplete j (by omega)
    · rcases Nat.eq_or_lt_of_le h with h2 | h2
      · rw [← h2, horigN, lookup_mapInsert_ne _ _ _ _ hod]
        exact ⟨N, lookup_mapInsert_self _ _ _⟩
      · have hj1 : j = N + 1 := by omega
        rw [hj1, horigN1]
        exact ⟨N + 1, lookup_mapInsert_self _ _ _⟩
  · -- ring
    intro p hp
    rw [himap] at hp
    rcases mem_mapInsert _ _ _ _ hp with h1 | h1
    · rw [h1]
      apply RingAt_singleton gn d (N + 1)
      · rw [degree_shift g gn o d hilen horig_old horigN horigN1 d, hdeg0d]
        simp [hod]
      · exact hnextN1
      · rw [hilen]; omega
      · exact horigN1
      · intro j hj hjd
        rw [hilen] at hj
        rcases Nat.lt_or_ge j N with h | h
        · exact absurd (by rw [← horig_old j h]; exact hjd) (hclassd j h)
        · rcases Nat.eq_or_lt_of_le h with h2 | h2
          · exfalso
            rw [← h2, horigN] at hjd
            exact hod hjd
          · omega
    · rcases mem_mapInsert _ _ _ _ h1 with h2 | h2
      · rw [h2]
        apply RingAt_singleton gn o N
        · rw [degree_shift g gn o d hilen horig_old horigN horigN1 o, hdeg0o]
          simp [hdo]
        · exact hnextN
        · rw [hilen]; omega
        · exact horigN
        · intro j hj hjo
          rw [hilen] at hj
          rcases Nat.lt_or_ge j N with h | h
          · exact absurd (by rw [← horig_old j h]; exact hjo) (hclasso j h)
          · rcases Nat.eq_or_lt_of_le h with h3 | h3
            · omega
            · exfalso
              have hj1 : j = N + 1 := by omega
              rw [hj1, horigN1] at hjo
              exact hdo hjo
      · have hp1o : p.1 ≠ o := by
          intro hh
          exact lookup_none_not_mem _ _ ha p.2 (by rw [← hh]; simpa using h2)
        have hp1d : p.1 ≠ d := by
          intro hh
          exact lookup_none_not_mem _ _ had p.2 (by rw [← hh]; simpa using h2)
        apply RingAt_untouched g gn p.1 p.2 (hWF.ring p h2)
        · rw [degree_shift g gn o d hilen horig_old horigN horigN1 p.1]
          have h3 : o ≠ p.1 := fun hh => hp1o hh.symm
          have h4 : d ≠ p.1 := fun hh => hp1d hh.symm
          simp [h3, h4]
        · intro j hj hjv
          exact hnext_old j hj
        · intro x
          rw [class_shift g gn o d hilen horig_old horigN horigN1 p.1 x]
          constructor
          · rintro (⟨rfl, hvo⟩ | ⟨rfl, hvd⟩ | h)
            · exact absurd hvo (fun hh => hp1o hh.symm)
            · exact absurd hvd (fun hh => hp1d hh.symm)
            · exact h
          · intro h
            exact Or.inr (Or.inr h)
  · -- noDupEdge
    intro i hi j hj ho1 hd1
    rw [hilen] at hi hj
    rcases Nat.lt_or_ge i N with hiN2 | hiN2 <;> rcases Nat.lt_or_ge j N with hjN2 | hjN2
    · rw [horig_old i hiN2, horig_old j hjN2] at ho1
      rw [hdest_old i hiN2, hdest_old j hjN2] at hd1
      exact hWF.noDupEdge i (by omega) j (by omega) ho1 hd1
    · rcases Nat.eq_or_lt_of_le hjN2 with h2 | h2
      · exfalso
        rw [horig_old i hiN2, ← h2, horigN] at ho1
        exact hclasso i (by omega) ho1
      · exfalso
        have hj1 : j = N + 1 := by omega
        rw [horig_old i hiN2, hj1, horigN1] at ho1
        exact hclassd i (by omega) ho1
    · rcases Nat.eq_or_lt_of_le hiN2 with h2 | h2
      · exfalso
        rw [← h2, horigN, horig_old j hjN2] at ho1
        exact hclasso j (by omega) ho1.symm
      · exfalso
        have hi1 : i = N + 1 := by omega
        rw [hi1, horigN1, horig_old j hjN2] at ho1
        exact hclassd j (by omega) ho1.symm
    · rcases Nat.eq_or_lt_of_le hiN2 with h2 | h2 <;>
        rcases Nat.eq_or_lt_of_le hjN2 with h3 | h3
      · omega
      · exfalso
        have hj1 : j = N + 1 := by omega
        rw [← h2, horigN, hj1, horigN1] at ho1
        exact hod ho1
      · exfalso
        have hi1 : i = N + 1 := by omega
        rw [hi1, horigN1, ← h3, horigN] at ho1
        exact hdo ho1
      · omega

theorem compareTo_eq_zero_iff (a b : Coordinate) :
    Coordinate.compareTo a b = 0 ↔ a = b := by
  cases a with
  | mk x1 y1 =>
    cases b with
    | mk x2 y2 =>
      simp only [Coordinate.compareTo, Coordinate.mk.injEq]
      split_ifs <;> norm_num <;> omega

theorem isValidEdge_true_iff (o d : Coordinate) : isValidEdge o d = true ↔ ¬ d = o := by
  simp [isValidEdge, compareTo_eq_zero_iff]

theorem isValidEdge_false_iff (o d : Coordinate) : isValidEdge o d = false ↔ d = o := by
  rw [← Bool.not_eq_true, isValidEdge_true_iff]
  tauto

theorem addEdge_eq_invalid (g : EdgeGraph) (o d : Coordinate)
    (hv : isValidEdge o d = false) : addEdge g o d = (g, none) := by
  simp [addEdge, hv]

theorem addEdge_eq_dup (g : EdgeGraph) (o d : Coordinate) (a s : Nat)
    (hv : isValidEdge o d = true)
    (ha : lookupMap g.vertexMap o = some a)
    (hf : findHE g a d = some s) : addEdge g o d = (g, some s) := by
  simp [addEdge, hv, ha, hf]

theorem addEdge_eq_fresh_some (g : EdgeGraph) (o d : Coordinate) (a : Nat)
    (hv : isValidEdge o d = true)
    (ha : lookupMap g.vertexMap o = some a)
    (hf : findHE g a d = none) :
    addEdge g o d = ((insertPair g o d (some a)).1, some (insertPair g o d (some a)).2) := by
  simp [addEdge, hv, ha, hf]

theorem addEdge_eq_fresh_none (g : EdgeGraph) (o d : Coordinate)
    (hv : isValidEdge o d = true)
    (ha : lookupMap g.vertexMap o = none) :
    addEdge g o d = ((insertPair g o d none).1, some (insertPair g o d none).2) := by
  simp [addEdge, hv, ha]

theorem WF_empty : WF emptyGraph := by
  refine ⟨?_, ?_, ?_, ?_, ?_, ?_, ?_⟩ <;> simp [emptyGraph]

theorem WF_addEdge (g : EdgeGraph) (o d : Coordinate) (hWF : WF g) :
    WF (addEdge g o d).1 := by
  by_cases hv : isValidEdge o d = true
  · have hod : o ≠ d := by
      have := (isValidEdge_true_iff o d).1 hv
      exact fun hh => this hh.symm
    cases hl : lookupMap g.vertexMap o with
    | some a =>
      have hamem : (o, a) ∈ g.vertexMap := lookupMap_mem _ _ _ hl
      cases hf : findHE g a d with
      | some s =>
        rw [addEdge_eq_dup g o d a s hv hl hf]
        exact hWF
      | none =>
        rw [addEdge_eq_fresh_some g o d a hv hl hf]
        cases hld : lookupMap g.vertexMap d with
        | some ad =>
          obtain ⟨hadN0, _⟩ := hWF.mapEntry (d, ad) (lookupMap_mem _ _ _ hld)
          exact WF_insertPair_ss g o d a ad hWF hod hl hld hf
        | none =>
          exact WF_insertPair_sn g o d a hWF hod hl hld hf
    | none =>
      rw [addEdge_eq_fresh_none g o d hv hl]
      cases hld : lookupMap g.vertexMap d with
      | some ad =>
        exact WF_insertPair_ns g o d ad hWF hod hl hld
      | none =>
        exact WF_insertPair_nn g o d hWF hod hl hld
  · have hv2 : isValidEdge o d = false := by
      cases h : isValidEdge o d
      · rfl
      · exact absurd h hv
    rw [addEdge_eq_invalid g o d hv2]
    exact hWF

theorem WF_reachable (g : EdgeGraph) (h : Reachable g) : WF g := by
  induction h with
  | base => exact WF_empty
  | step g2 o d _ ih => exact WF_addEdge g2 o d ih

theorem findEdge_some_spec (g : EdgeGraph) (o c : Coordinate) (j : Nat)
    (hWF : WF g) (h : findEdge g o c = some j) :
    j < g.edges.length ∧ origAt g j = o ∧ destAt g j = c := by
  unfold findEdge at h
  cases hl : lookupMap g.vertexMap o with
  | none => rw [hl] at h; exact Option.noConfusion h
  | some r =>
    rw [hl] at h
    have hrmem : (o, r) ∈ g.vertexMap := lookupMap_mem _ _ _ hl
    obtain ⟨hrN0, horigr0⟩ := hWF.mapEntry (o, r) hrmem
    have hrN : r < g.edges.length := hrN0
    have horigr : origAt g r = o := horigr0
    exact (findHE_correct g o r c (hWF.ring (o, r) hrmem) hrN horigr).1 j h

theorem findEdge_eq_some (g : EdgeGraph) (o c : Coordinate) (j : Nat)
    (hWF : WF g) (hj : j < g.edges.length) (ho : origAt g j = o)
    (hc : destAt g j = c) : findEdge g o c = some j := by
  obtain ⟨r, hr⟩ := hWF.mapComplete j hj
  rw [ho] at hr
  have hrmem : (o, r) ∈ g.vertexMap := lookupMap_mem _ _ _ hr
  obtain ⟨hrN0, horigr0⟩ := hWF.mapEntry (o, r) hrmem
  have hrN : r < g.edges.length := hrN0
  have horigr : origAt g r = o := horigr0
  have hgoal : findEdge g o c = findHE g r c := by
    unfold findEdge
    rw [hr]
  rw [hgoal]
  cases hfe : findHE g r c with
  | none =>
    exact absurd hc ((findHE_correct g o r c (hWF.ring (o, r) hrmem) hrN horigr).2 hfe j hj ho)
  | some i =>
    obtain ⟨hiN, hiorig, hidest⟩ :=
      (findHE_correct g o r c (hWF.ring (o, r) hrmem) hrN horigr).1 i hfe
    have hij : i = j := hWF.noDupEdge i hiN j hj (by rw [hiorig, ho]) (by rw [hidest, hc])
    rw [hij]

theorem symAt_invol (g : EdgeGraph) (j : Nat) (hWF : WF g) (hj : j < g.edges.length) :
    symAt g j < g.edges.length
    ∧ symAt g (symAt g j) = j
    ∧ origAt g (symAt g j) = destAt g j
    ∧ destAt g (symAt g j) = origAt g j := by
  obtain ⟨s, hs1, hs2, hs3, hs4⟩ := hWF.symSome j hj
  have hsj : symAt g j = s := by simp [symAt, hs1]
  have hss : symAt g s = j := by simp [symAt, hs3]
  refine ⟨by rw [hsj]; exact hs2, by rw [hsj, hss], rfl, ?_⟩
  simp only [destAt]
  rw [hsj, hss]

theorem findEdge_flip (g : EdgeGraph) (oo dd : Coordinate) (j : Nat)
    (hWF : WF g) (h : findEdge g dd oo = some j) :
    findEdge g oo dd = some (symAt g j) := by
  obtain ⟨hjN, hjorig, hjdest⟩ := findEdge_some_spec g dd oo j hWF h
  obtain ⟨hsN, _, hsorig, hsdest⟩ := symAt_invol g j hWF hjN
  exact findEdge_eq_some g oo dd (symAt g j) hWF hsN (by rw [hsorig, hjdest])
    (by rw [hsdest, hjorig])

theorem addEdge_props (g : EdgeGraph) (o d : Coordinate) (hWF : WF g) (hod : o ≠ d) :
    ∃ e, (addEdge g o d).2 = some e ∧ WF (addEdge g o d).1
      ∧ e < (addEdge g o d).1.edges.length
      ∧ origAt (addEdge g o d).1 e = o ∧ destAt (addEdge g o d).1 e = d := by
  have hv : isValidEdge o d = true := (isValidEdge_true_iff o d).2 (fun hh => hod hh.symm)
  cases hl : lookupMap g.vertexMap o with
  | some a =>
    have hamem : (o, a) ∈ g.vertexMap := lookupMap_mem _ _ _ hl
    obtain ⟨haN0, horiga0⟩ := hWF.mapEntry (o, a) hamem
    have haN : a < g.edges.length := haN0
    have horiga : origAt g a = o := horiga0
    cases hf : findHE g a d with
    | some s =>
      rw [addEdge_eq_dup g o d a s hv hl hf]
      obtain ⟨hsN, hsorig, hsdest⟩ :=
        (findHE_correct g o a d (hWF.ring (o, a) hamem) haN horiga).1 s hf
      exact ⟨s, rfl, hWF, hsN, hsorig, hsdest⟩
    | none =>
      rw [addEdge_eq_fresh_some g o d a hv hl hf]
      cases hld : lookupMap g.vertexMap d with
      | some ad =>
        obtain ⟨hadN0, horigad0⟩ := hWF.mapEntry (d, ad) (lookupMap_mem _ _ _ hld)
        have hadN : ad < g.edges.length := hadN0
        have horigad : origAt g ad = d := horigad0
        have hne : a ≠ ad := fun hh => hod (by rw [← horiga, hh, horigad])
        obtain ⟨hip2, himap, hilen, hiold, hia, hiad, hiN, hiN1⟩ :=
          insertPair_ss g o d a ad hld haN hadN hne
        refine ⟨(insertPair g o d (some a)).2, rfl,
          WF_insertPair_ss g o d a ad hWF hod hl hld hf, ?_, ?_, ?_⟩
        · rw [hip2, hilen]; omega
        · rw [hip2]
          simp [origAt, heAt_of_get _ _ _ hiN]
        · rw [hip2]
          have hsymN : symAt (insertPair g o d (some a)).1 g.edges.length =
              g.edges.length + 1 := by
            simp [symAt, heAt_of_get _ _ _ hiN]
          have horigN1 : origAt (insertPair g o d (some a)).1 (g.edges.length + 1) = d := by
            simp [origAt, heAt_of_get _ _ _ hiN1]
          simp only [destAt]
          rw [hsymN, horigN1]
      | none =>
        obtain ⟨hip2, himap, hilen, hiold, hia, hiN, hiN1⟩ :=
          insertPair_sn g o d a hld haN
        refine ⟨(insertPair g o d (some a)).2, rfl,
          WF_insertPair_sn g o d a hWF hod hl hld hf, ?_, ?_, ?_⟩
        · rw [hip2, hilen]; omega
        · rw [hip2]
          simp [origAt, heAt_of_get _ _ _ hiN]
        · rw [hip2]
          have hsymN : symAt (insertPair g o d (some a)).1 g.edges.length =
              g.edges.length + 1 := by
            simp [symAt, heAt_of_get _ _ _ hiN]
          have horigN1 : origAt (insertPair g o d (some a)).1 (g.edges.length + 1) = d := by
            simp [origAt, heAt_of_get _ _ _ hiN1]
          simp only [destAt]
          rw [hsymN, horigN1]
  | none =>
    rw [addEdge_eq_fresh_none g o d hv hl]
    have hdo : d ≠ o := fun hh => hod hh.symm
    cases hld : lookupMap g.vertexMap d with
    | some ad =>
      obtain ⟨hadN0, horigad0⟩ := hWF.mapEntry (d, ad) (lookupMap_mem _ _ _ hld)
      have hadN : ad < g.edges.length := hadN0
      obtain ⟨hip2, himap, hilen, hiold, hiad, hiN, hiN1⟩ :=
        insertPair_ns g o d ad hld hadN hdo
      refine ⟨(insertPair g o d none).2, rfl,
        WF_insertPair_ns g o d ad hWF hod hl hld, ?_, ?_, ?_⟩
      · rw [hip2, hilen]; omega
      · rw [hip2]
        simp [origAt, heAt_of_get _ _ _ hiN]
      · rw [hip2]
        have hsymN : symAt (insertPair g o d none).1 g.edges.length =
            g.edges.length + 1 := by
          simp [symAt, heAt_of_get _ _ _ hiN]
        have horigN1 : origAt (insertPair g o d none).1 (g.edges.length + 1) = d := by
          simp [origAt, heAt_of_get _ _ _ hiN1]
        simp only [destAt]
        rw [hsymN, horigN1]
    | none =>
      obtain ⟨hip2, himap, hilen, hiold, hiN, hiN1⟩ := insertPair_nn g o d hld hdo
      refine ⟨(insertPair g o d none).2, rfl,
        WF_insertPair_nn g o d hWF hod hl hld, ?_, ?_, ?_⟩
      · rw [hip2, hilen]; omega
      · rw [hip2]
        simp [origAt, heAt_of_get _ _ _ hiN]
      · rw [hip2]
        have hsymN : symAt (insertPair g o d none).1 g.edges.length =
            g.edges.length + 1 := by
          simp [symAt, heAt_of_get _ _ _ hiN]
        have horigN1 : origAt (insertPair g o d none).1 (g.edges.length + 1) = d := by
          simp [origAt, heAt_of_get _ _ _ hiN1]
        simp only [destAt]
        rw [hsymN, horigN1]

/-- Claim C1: addEdge is idempotent — in every reachable graph state, for
distinct coordinates `o` and `d`, if an edge between `o` and `d` is already
present in either direction, then `addEdge o d` returns the already-stored
half-edge from `o` to `d` (the one `findEdge o d` yields), creates no new
half-edges and leaves the vertex map and edge storage unchanged (the
resulting state is the input state itself). -/
theorem addEdge_idempotent (g : EdgeGraph) (o d : Coordinate)
    (hg : Reachable g) (hod : o ≠ d)
    (hpresent : (findEdge g o d).isSome ∨ (findEdge g d o).isSome) :
    addEdge g o d = (g, findEdge g o d) ∧ (findEdge g o d).isSome := by
  have hWF := WF_reachable g hg
  have hsome : ∃ j, findEdge g o d = some j := by
    rcases hpresent with h | h
    · rcases Option.isSome_iff_exists.1 h with ⟨j, hj⟩
      exact ⟨j, hj⟩
    · rcases Option.isSome_iff_exists.1 h with ⟨j, hj⟩
      exact ⟨symAt g j, findEdge_flip g o d j hWF hj⟩
  obtain ⟨j, hj⟩ := hsome
  have hv : isValidEdge o d = true := (isValidEdge_true_iff o d).2 (fun hh => hod hh.symm)
  cases hl : lookupMap g.vertexMap o with
  | none =>
    exfalso
    unfold findEdge at hj
    rw [hl] at hj
    exact Option.noConfusion hj
  | some r =>
    have hfr : findHE g r d = some j := by
      unfold findEdge at hj
      rw [hl] at hj
      exact hj
    rw [addEdge_eq_dup g o d r j hv hl hfr, hj]
    exact ⟨rfl, rfl⟩

/-- Witness for C1 at the concrete one-edge graph. -/
theorem addEdge_idempotent_witness :
    addEdge gAB cA cB = (gAB, findEdge gAB cA cB) ∧ (findEdge gAB cA cB).isSome :=
  addEdge_idempotent gAB cA cB (Reachable.step emptyGraph cA cB Reachable.base)
    (by decide) (Or.inl (by decide))

/-- Claim C2: symmetry of insertion — in every reachable graph state, after
`addEdge o d` with distinct `o` and `d` returns successfully, both
`findEdge o d` and `findEdge d o` return a half-edge, and the two returned
half-edges are each other's `sym`. -/
theorem addEdge_symmetry (g : EdgeGraph) (o d : Coordinate) (g2 : EdgeGraph) (e : Nat)
    (hg : Reachable g) (hod : o ≠ d) (h : addEdge g o d = (g2, some e)) :
    ∃ i j, findEdge g2 o d = some i ∧ findEdge g2 d o = some j
      ∧ symAt g2 i = j ∧ symAt g2 j = i := by
  have hWF := WF_reachable g hg
  obtain ⟨e2, he2, hWF2, heN, heorig, hedest⟩ := addEdge_props g o d hWF hod
  have h1 : (addEdge g o d).1 = g2 := by rw [h]
  rw [h1] at hWF2 heN heorig hedest
  have hfe : findEdge g2 o d = some e2 := findEdge_eq_some g2 o d e2 hWF2 heN heorig hedest
  obtain ⟨hsN, hsinv, hsorig, hsdest⟩ := symAt_invol g2 e2 hWF2 heN
  have hfd : findEdge g2 d o = some (symAt g2 e2) :=
    findEdge_eq_some g2 d o _ hWF2 hsN (by rw [hsorig, hedest]) (by rw [hsdest, heorig])
  exact ⟨e2, symAt g2 e2, hfe, hfd, rfl, hsinv⟩

/-- Witness for C2: inserting (cA, cB) into the empty graph. -/
theorem addEdge_symmetry_witness :
    ∃ i j, findEdge gAB cA cB = some i ∧ findEdge gAB cB cA = some j
      ∧ symAt gAB i = j ∧ symAt gAB j = i :=
  addEdge_symmetry emptyGraph cA cB gAB 0 Reachable.base (by decide) (by decide)

/-- Claim C3: degenerate-edge rejection with no mutation — for every
coordinate `p` and every graph state, `addEdge p p` returns the null signal
and leaves the graph (vertex map and edge storage) exactly as it was; the
rejection happens before any state change. -/
theorem addEdge_degenerate (g : EdgeGraph) (p : Coordinate) :
    addEdge g p p = (g, none) := by
  apply addEdge_eq_invalid
  rw [isValidEdge_false_iff]

/-- Claim C4: ring closure invariant — in every reachable graph state, for
every vertex `v` in the vertex map with representative half-edge `r`,
following `next` from `r` returns to `r` after exactly `degree v` steps
(and not earlier), where `degree v` counts the half-edges whose origin is
`v`; these are in bijection with the distinct edges incident to `v`
inserted so far, as the third conjunct (injectivity of the destination on
`v`'s half-edges) makes precise. -/
theorem ring_closure (g : EdgeGraph) (v : Coordinate) (r : Nat)
    (hg : Reachable g) (hmem : (v, r) ∈ g.vertexMap) :
    (nextAt g)^[degree g v] r = r
    ∧ (∀ m, 0 < m → m < degree g v → (nextAt g)^[m] r ≠ r)
    ∧ (∀ i, i < g.edges.length → ∀ j, j < g.edges.length →
        origAt g i = v → origAt g j = v → destAt g i = destAt g j → i = j) := by
  have hWF := WF_reachable g hg
  obtain ⟨hclose, hnd, hm⟩ := hWF.ring (v, r) hmem
  refine ⟨hclose, ?_, ?_⟩
  · intro m hm0 hmd heq
    have h0 : (nextAt g)^[m] r = (nextAt g)^[0] r := by simpa using heq
    have := traj_nodup_inj (nextAt g) r (degree g v) hnd m 0 hmd (by omega) h0
    omega
  · intro i hi j hj ho1 ho2 hd
    exact hWF.noDupEdge i hi j hj (by rw [ho1, ho2]) hd

/-- Witness for C4 at vertex cA of the one-edge graph. -/
theorem ring_closure_witness :
    (nextAt gAB)^[degree gAB cA] 0 = 0
    ∧ (∀ m, 0 < m → m < degree gAB cA → (nextAt gAB)^[m] 0 ≠ 0)
    ∧ (∀ i, i < gAB.edges.length → ∀ j, j < gAB.edges.length →
        origAt gAB i = cA → origAt gAB j = cA → destAt gAB i = destAt gAB j → i = j) :=
  ring_closure gAB cA 0 (Reachable.step emptyGraph cA cB Reachable.base) (by decide)

/-- Claim C5: vertex-map invariant — in every reachable graph state, the
vertex map has pairwise distinct keys, and the half-edge stored under each
key is a stored half-edge of the arena whose origin is that key (so every
key is a vertex of some inserted edge). -/
theorem vertexMap_invariant (g : EdgeGraph) (hg : Reachable g) :
    (g.vertexMap.map Prod.fst).Nodup
    ∧ ∀ p, p ∈ g.vertexMap → p.2 < g.edges.length ∧ origAt g p.2 = p.1 := by
  have hWF := WF_reachable g hg
  exact ⟨hWF.mapNodupKeys, hWF.mapEntry⟩

/-- Witness for C5 at the one-edge graph. -/
theorem vertexMap_invariant_witness :
    (gAB.vertexMap.map Prod.fst).Nodup
    ∧ ∀ p, p ∈ gAB.vertexMap → p.2 < gAB.edges.length ∧ origAt gAB p.2 = p.1 :=
  vertexMap_invariant gAB (Reachable.step emptyGraph cA cB Reachable.base)

/-- Claim C6: addEdge return value postcondition — in every reachable graph
state, for distinct `o` and `d`, the half-edge handle returned by
`addEdge o d` has origin `o` and destination (its sym's origin) `d`, in
both the fresh-insertion and the duplicate case. -/
theorem addEdge_result_endpoints (g : EdgeGraph) (o d : Coordinate) (g2 : EdgeGraph)
    (e : Nat) (hg : Reachable g) (hod : o ≠ d) (h : addEdge g o d = (g2, some e)) :
    origAt g2 e = o ∧ destAt g2 e = d := by
  have hWF := WF_reachable g hg
  obtain ⟨e2, he2, hWF2, heN, heorig, hedest⟩ := addEdge_props g o d hWF hod
  have h1 : (addEdge g o d).1 = g2 := by rw [h]
  have h2 : e2 = e := by
    rw [h] at he2
    exact (Option.some_inj.1 he2).symm
  rw [h1, h2] at heorig hedest
  exact ⟨heorig, hedest⟩

/-- Witness for C6: the first insertion into the empty graph. -/
theorem addEdge_result_endpoints_witness :
    origAt gAB 0 = cA ∧ destAt gAB 0 = cB :=
  addEdge_result_endpoints emptyGraph cA cB gAB 0 Reachable.base (by decide) (by decide)

/-- Claim C7: findEdge semantics — for every graph state and coordinates,
if the origin is not a key of the vertex map then `findEdge` returns the
not-found signal, and otherwise it returns exactly the result of `find`
(the ring search) on the half-edge stored for the origin. -/
theorem findEdge_delegates (g : EdgeGraph) (o d : Coordinate) :
    (lookupMap g.vertexMap o = none → findEdge g o d = none)
    ∧ ∀ r, lookupMap g.vertexMap o = some r → findEdge g o d = findHE g r d := by
  constructor
  · intro h
    unfold findEdge
    rw [h]
  · intro r h
    unfold findEdge
    rw [h]

/-- Witness for C7: an absent origin and a present origin. -/
theorem findEdge_delegates_witness :
    findEdge emptyGraph cA cB = none ∧ findEdge gAB cA cB = findHE gAB 0 cB :=
  ⟨(findEdge_delegates emptyGraph cA cB).1 (by decide),
   (findEdge_delegates gAB cA cB).2 0 (by decide)⟩

/-- Claim C8: totality of addEdge for well-formed input — for every graph
state, `addEdge o d` with `o ≠ d` returns a (non-null) half-edge handle,
and the null result occurs exactly in the degenerate case `o = d`, which
leaves the state unchanged; no other failure path exists. -/
theorem addEdge_total (g : EdgeGraph) (o d : Coordinate) :
    (o ≠ d → ∃ e, (addEdge g o d).2 = some e)
    ∧ (o = d → addEdge g o d = (g, none)) := by
  constructor
  · intro hod
    have hv : isValidEdge o d = true := (isValidEdge_true_iff o d).2 (fun hh => hod hh.symm)
    cases hl : lookupMap g.vertexMap o with
    | some a =>
      cases hf : findHE g a d with
      | some s =>
        rw [addEdge_eq_dup g o d a s hv hl hf]
        exact ⟨s, rfl⟩
      | none =>
        rw [addEdge_eq_fresh_some g o d a hv hl hf]
        exact ⟨(insertPair g o d (some a)).2, rfl⟩
    | none =>
      rw [addEdge_eq_fresh_none g o d hv hl]
      exact ⟨(insertPair g o d none).2, rfl⟩
  · intro h
    subst h
    apply addEdge_eq_invalid
    rw [isValidEdge_false_iff]

/-- Witness for C8: a successful insertion and a degenerate rejection. -/
theorem addEdge_total_witness :
    (∃ e, (addEdge emptyGraph cA cB).2 = some e) ∧ addEdge gAB cC cC = (gAB, none) :=
  ⟨(addEdge_total emptyGraph cA cB).1 (by decide), (addEdge_total gAB cC cC).2 rfl⟩

/-- Claim C9: getVertexEdges enumeration — in every reachable graph state,
`getVertexEdges` (started on an empty output vector) produces exactly the
stored representative of each vertex map entry, in map order; the keys are
pairwise distinct, so no vertex is omitted or listed twice. -/
theorem getVertexEdges_enumerates (g : EdgeGraph) (hg : Reachable g) :
    (getVertexEdges g []).2 = g.vertexMap.map Prod.snd
    ∧ (g.vertexMap.map Prod.fst).Nodup
    ∧ ∀ p, p ∈ g.vertexMap → p.2 ∈ (getVertexEdges g []).2 := by
  have hWF := WF_reachable g hg
  refine ⟨by simp [getVertexEdges], hWF.mapNodupKeys, ?_⟩
  intro p hp
  simp only [getVertexEdges, List.nil_append, List.mem_map]
  exact ⟨p, hp, rfl⟩

/-- Witness for C9 at the one-edge graph. -/
theorem getVertexEdges_enumerates_witness :
    (getVertexEdges gAB []).2 = gAB.vertexMap.map Prod.snd
    ∧ (gAB.vertexMap.map Prod.fst).Nodup
    ∧ ∀ p, p ∈ gAB.vertexMap → p.2 ∈ (getVertexEdges gAB []).2 :=
  getVertexEdges_enumerates gAB (Reachable.step emptyGraph cA cB Reachable.base)

/-- Claim C10 (implicit): getVertexEdges appends to its output parameter
without clearing it — for every graph state and every initial content of
the output vector, the result is the prior elements unchanged (elementwise,
as the third conjunct states) followed by the vertex-map representatives,
and the graph state itself is not mutated by the call. -/
theorem getVertexEdges_frame (g : EdgeGraph) (out : List Nat) :
    (getVertexEdges g out).1 = g
    ∧ (getVertexEdges g out).2 = out ++ (getVertexEdges g []).2
    ∧ ∀ k, k < out.length → (getVertexEdges g out).2[k]? = out[k]? := by
  refine ⟨rfl, by simp [getVertexEdges], ?_⟩
  intro k hk
  simp only [getVertexEdges]
  exact get_append_lt out _ k hk

/-- Witness for C10: a non-empty output vector is kept as a prefix. -/
theorem getVertexEdges_frame_witness :
    (getVertexEdges gAB [5]).1 = gAB
    ∧ (getVertexEdges gAB [5]).2 = [5] ++ (getVertexEdges gAB []).2
    ∧ ∀ k, k < ([5] : List Nat).length → (getVertexEdges gAB [5]).2[k]? = ([5] : List Nat)[k]? :=
  getVertexEdges_frame gAB [5]

end Geos
